import Mathlib

/-!
Verification of the hand-written BibTeX parsing and formatting pipeline that is
duplicated across the two scripts of this repository
(src/_scripts/generate_research.py and src/cv/build.py).

Strings are modelled as lists of characters (Lean List Char); the Python
character classes for the regex shorthands \w and \s are modelled by their
ASCII parts, which is all these data files use.  The parsing loops of the
source, which walk an absolute cursor through the text, are modelled as
recursion on the suffix of the text that starts at the cursor.
-/

/-- Character class of the regex shorthand \w (word character). -/
def isWordChar (c : Char) : Bool :=
  c.isAlphanum || c = '_'

/-- Character class of the regex shorthand \s and of str.strip (whitespace). -/
def isSpaceChar (c : Char) : Bool :=
  c = ' ' || c = '\t' || c = '\n' || c = '\r' || c = '\x0b' || c = '\x0c'

/-- The double-quote character, written via its code point. -/
def quoteChar : Char := Char.ofNat 34

/-- The single-quote character, written via its code point. -/
def singleQuoteChar : Char := Char.ofNat 39

/-- Python str.lower, modelled on the ASCII range. -/
def lowerStr (s : List Char) : List Char :=
  s.map Char.toLower

/-- Drop leading whitespace (left part of Python str.strip). -/
def trimLeft (s : List Char) : List Char :=
  s.dropWhile isSpaceChar

/-- Drop trailing whitespace (right part of Python str.strip). -/
def trimRight (s : List Char) : List Char :=
  (trimLeft s.reverse).reverse

/-- Python str.strip(): drop leading and trailing whitespace. -/
def pyStrip (s : List Char) : List Char :=
  trimRight (trimLeft s)

/-- Contribution of one character to the brace-nesting depth. -/
def braceDelta (c : Char) : Int :=
  if c = '{' then 1 else if c = '}' then -1 else 0

/-- Total brace-depth change over a string. -/
def deltaSum (s : List Char) : Int :=
  (s.map braceDelta).sum

/-- All running depths stay strictly positive when scanning s from depth d. -/
def depthPos : Int → List Char → Bool
  | _, [] => true
  | d, c :: r =>
    let d' := d + braceDelta c
    decide (0 < d') && depthPos d' r

/-- Split a string at its first comma: text.index(",", i) together with the
slicing done at the call sites.  none models the ValueError of str.index. -/
def splitFirstComma : List Char → Option (List Char × List Char)
  | [] => none
  | c :: r =>
    if c = ',' then some ([], r)
    else (splitFirstComma r).map (fun p => (c :: p.1, p.2))

/-- Split a string at its first double quote: body.index(quote, i) together
with the slicing done at the call site.  none models the ValueError. -/
def splitFirstQuote : List Char → Option (List Char × List Char)
  | [] => none
  | c :: r =>
    if c = quoteChar then some ([], r)
    else (splitFirstQuote r).map (fun p => (c :: p.1, p.2))

/-- The brace-depth scanning loop shared by parse_bib and parse_bib_fields:
starting at depth d, walk the text, incrementing the depth on an opening brace
and decrementing it on a closing one, until the depth reaches 0 or the text
ends.  Returns the characters walked over before the terminator, the unread
rest, and the final depth (0 exactly when a matching closer was found). -/
def braceRun : Nat → List Char → List Char → List Char × List Char × Nat
  | d, acc, [] => (acc.reverse, [], d)
  | d, acc, c :: r =>
    let d' := if c = '{' then d + 1 else if c = '}' then d - 1 else d
    if d' = 0 then (acc.reverse, r, 0) else braceRun d' (c :: acc) r

/-- Attempted match of the anchored regex @(\w+)\s*\{ at the head of the text.
The three character classes are pairwise disjoint, so the greedy quantifiers
match maximal runs with no backtracking. -/
def matchEntryHead (s : List Char) : Option (List Char × List Char) :=
  match s with
  | [] => none
  | c :: r =>
    if c = '@' then
      let w := r.takeWhile isWordChar
      if w = [] then none
      else
        match (r.dropWhile isWordChar).dropWhile isSpaceChar with
        | c2 :: r2 => if c2 = '{' then some (w, r2) else none
        | [] => none
    else none

/-- Leftmost match of re.search for @(\w+)\s*\{: returns the captured entry
type and the text right after the opening brace. -/
def findEntryHead : List Char → Option (List Char × List Char)
  | [] => none
  | c :: r =>
    match matchEntryHead (c :: r) with
    | some p => some p
    | none => findEntryHead r

/-- Attempted match of the anchored regex (\w+)\s*=\s* at the head of the text:
returns the captured field name and the text right after the trailing
whitespace run. -/
def matchFieldHead (s : List Char) : Option (List Char × List Char) :=
  let w := s.takeWhile isWordChar
  if w = [] then none
  else
    match (s.dropWhile isWordChar).dropWhile isSpaceChar with
    | c2 :: r2 => if c2 = '=' then some (w, r2.dropWhile isSpaceChar) else none
    | [] => none

/-- Leftmost match of pattern.search for (\w+)\s*=\s*. -/
def searchFieldHead : List Char → Option (List Char × List Char)
  | [] => none
  | c :: r =>
    match matchFieldHead (c :: r) with
    | some p => some p
    | none => searchFieldHead r

theorem splitFirstComma_length {t k r : List Char}
    (h : splitFirstComma t = some (k, r)) : r.length < t.length := by
  induction t generalizing k with
  | nil => simp [splitFirstComma] at h
  | cons c t ih =>
    by_cases hc : c = ','
    · simp [splitFirstComma, hc] at h
      simp [← h.2]
    · simp [splitFirstComma, hc] at h
      rcases h with ⟨p1, hp, h1⟩
      exact Nat.lt_succ_of_lt (ih hp)

theorem splitFirstQuote_length {t k r : List Char}
    (h : splitFirstQuote t = some (k, r)) : r.length < t.length := by
  induction t generalizing k with
  | nil => simp [splitFirstQuote] at h
  | cons c t ih =>
    by_cases hc : c = quoteChar
    · simp [splitFirstQuote, hc] at h
      simp [← h.2]
    · simp [splitFirstQuote, hc] at h
      rcases h with ⟨p1, hp, h1⟩
      exact Nat.lt_succ_of_lt (ih hp)

theorem braceRun_length {t : List Char} {d : Nat} {acc b rest : List Char}
    {df : Nat} (h : braceRun d acc t = (b, rest, df)) :
    rest.length ≤ t.length := by
  induction t generalizing d acc with
  | nil =>
    simp [braceRun] at h
    simp [← h.2.1]
  | cons c t ih =>
    simp only [braceRun] at h
    by_cases h0 : (if c = '{' then d + 1 else if c = '}' then d - 1 else d) = 0
    · rw [if_pos h0] at h
      simp only [Prod.mk.injEq] at h
      simp [← h.2.1, Nat.le_succ_of_le, Nat.le_refl]
    · rw [if_neg h0] at h
      exact Nat.le_succ_of_le (ih h)

theorem braceRun_closed_length {t : List Char} {d : Nat} {acc b rest : List Char}
    (hd : d ≠ 0) (h : braceRun d acc t = (b, rest, 0)) :
    rest.length < t.length := by
  induction t generalizing d acc with
  | nil =>
    simp [braceRun] at h
    exact absurd h.2.2 hd
  | cons c t ih =>
    simp only [braceRun] at h
    by_cases h0 : (if c = '{' then d + 1 else if c = '}' then d - 1 else d) = 0
    · rw [if_pos h0] at h
      simp only [Prod.mk.injEq] at h
      simp [← h.2.1, Nat.lt_succ_of_le, Nat.le_refl]
    · rw [if_neg h0] at h
      exact Nat.lt_succ_of_lt (ih h0 h)

theorem matchEntryHead_length {t w r : List Char}
    (h : matchEntryHead t = some (w, r)) : r.length < t.length := by
  match t with
  | [] => simp [matchEntryHead] at h
  | c :: s =>
    simp only [matchEntryHead] at h
    by_cases hc : c = '@'
    · rw [if_pos hc] at h
      by_cases hw : s.takeWhile isWordChar = []
      · rw [if_pos hw] at h
        simp at h
      · rw [if_neg hw] at h
        split at h
        · next c2 r2 hds =>
          by_cases hc2 : c2 = '{'
          · rw [if_pos hc2] at h
            simp only [Option.some.injEq, Prod.mk.injEq] at h
            have h1 : r2.length + 1 ≤ (s.dropWhile isWordChar).length := by
              have := ((s.dropWhile isWordChar).dropWhile_sublist isSpaceChar).length_le
              rw [hds] at this
              simpa using this
            have h2 : (s.dropWhile isWordChar).length ≤ s.length :=
              (s.dropWhile_sublist isWordChar).length_le
            rw [← h.2]
            simp only [List.length_cons]
            omega
          · rw [if_neg hc2] at h
            simp at h
        · simp at h
    · rw [if_neg hc] at h
      simp at h

theorem findEntryHead_length {t w r : List Char}
    (h : findEntryHead t = some (w, r)) : r.length < t.length := by
  induction t with
  | nil => simp [findEntryHead] at h
  | cons c s ih =>
    simp only [findEntryHead] at h
    split at h
    · next p hp =>
      cases h
      exact matchEntryHead_length hp
    · exact Nat.lt_succ_of_lt (ih h)

theorem matchFieldHead_length {t w r : List Char}
    (h : matchFieldHead t = some (w, r)) : r.length < t.length := by
  simp only [matchFieldHead] at h
  by_cases hw : t.takeWhile isWordChar = []
  · rw [if_pos hw] at h
    simp at h
  · rw [if_neg hw] at h
    split at h
    case neg.h_2 => simp at h
    case neg.h_1 c2 r2 hds =>
      by_cases hc2 : c2 = '='
      · rw [if_pos hc2] at h
        simp only [Option.some.injEq, Prod.mk.injEq] at h
        have h1 : r2.length + 1 ≤ (t.dropWhile isWordChar).length := by
          have := ((t.dropWhile isWordChar).dropWhile_sublist isSpaceChar).length_le
          rw [hds] at this
          simpa using this
        have h2 : (t.takeWhile isWordChar).length + (t.dropWhile isWordChar).length = t.length := by
          have := congrArg List.length (t.takeWhile_append_dropWhile isWordChar)
          rwa [List.length_append] at this
        have h3 : (r2.dropWhile isSpaceChar).length ≤ r2.length :=
          (r2.dropWhile_sublist isSpaceChar).length_le
        have h4 : 0 < (t.takeWhile isWordChar).length := by
          cases hx : t.takeWhile isWordChar with
          | nil => exact absurd hx hw
          | cons a as => simp
        rw [← h.2]
        omega
      · rw [if_neg hc2] at h
        simp at h

theorem searchFieldHead_length {t w r : List Char}
    (h : searchFieldHead t = some (w, r)) : r.length < t.length := by
  induction t with
  | nil => simp [searchFieldHead] at h
  | cons c s ih =>
    simp only [searchFieldHead] at h
    split at h
    · next p hp =>
      cases h
      exact matchFieldHead_length hp
    · exact Nat.lt_succ_of_lt (ih h)

/-- Record produced for one bibliography entry.  The Python code stores the
entry type and citation key in the same dict as the fields (under the keys
_type and _key, assigned after field parsing); they are modelled as separate
components of a structure. -/
structure BibRecord where
  entry_type : List Char
  key : List Char
  fields : List (List Char × List Char)
  deriving DecidableEq, Repr

/-- Field mapping of one entry, in insertion order. -/
abbrev Fields := List (List Char × List Char)

/-- Python dict assignment fields[k] = v: overwrite in place if the key is
present, append otherwise. -/
def insertField : Fields → List Char → List Char → Fields
  | [], k, v => [(k, v)]
  | (k', v') :: rest, k, v =>
    if k' = k then (k', v) :: rest else (k', v') :: insertField rest k v

/-- Python dict lookup (keys are unique by construction). -/
def lookupField : Fields → List Char → Option (List Char)
  | [], _ => none
  | (k', v') :: rest, k => if k' = k then some v' else lookupField rest k

/-- Scanning loop of re.sub for the patterns of the shape \cmd{([^}]*)}
(used for textit, textbf, emph): at each position, if the literal command
name plus opening brace matches, the run of non-brace characters and the
closing brace are replaced by the run alone; otherwise the scan advances one
character, exactly as the regex engine does after a failed anchored match. -/
def subCmd (cmd : List Char) : List Char → List Char
  | [] => []
  | c :: rest =>
    if (cmd ++ ['{']).isPrefixOf (c :: rest) then
      match hdw : ((c :: rest).drop (cmd.length + 1)).dropWhile (fun x => x != '}') with
      | '}' :: r3 =>
        ((c :: rest).drop (cmd.length + 1)).takeWhile (fun x => x != '}') ++ subCmd cmd r3
      | _ => c :: subCmd cmd rest
    else c :: subCmd cmd rest
termination_by s => s.length
decreasing_by
  · have h1 : (((c :: r).drop (cmd.length + 1)).dropWhile (fun x => x != '}')).length
        ≤ ((c :: r).drop (cmd.length + 1)).length :=
      (List.dropWhile_sublist (fun x => x != '}')).length_le
    rw [hdw] at h1
    have h2 : ((c :: r).drop (cmd.length + 1)).length ≤ r.length := by
      simp [List.length_drop]
    simp only [List.length_cons] at *
    omega
  · simp [Nat.lt_succ_self]
  · simp [Nat.lt_succ_self]

/-- The literal head of the regex for href. -/
def hrefPat : List Char := ['\\', 'h', 'r', 'e', 'f', '\x7b']

/-- Scanning loop of re.sub for \href{[^}]*}{([^}]*)}: the url part is
dropped and the text part kept. -/
def subHref : List Char → List Char
  | [] => []
  | c :: rest =>
    if hrefPat.isPrefixOf (c :: rest) then
      match hdw : ((c :: rest).drop 6).dropWhile (fun x => x != '}') with
      | '}' :: '{' :: r3 =>
        match hdw2 : r3.dropWhile (fun x => x != '}') with
        | '}' :: r5 => r3.takeWhile (fun x => x != '}') ++ subHref r5
        | _ => c :: subHref rest
      | _ => c :: subHref rest
    else c :: subHref rest
termination_by s => s.length
decreasing_by
  · have h1 : (((c :: r).drop 6).dropWhile (fun x => x != '}')).length
        ≤ ((c :: r).drop 6).length :=
      (List.dropWhile_sublist (fun x => x != '}')).length_le
    rw [hdw] at h1
    have h2 : ((c :: r).drop 6).length ≤ r.length := by
      simp [List.length_drop]
    have h3 : (r3.dropWhile (fun x => x != '}')).length ≤ r3.length :=
      (List.dropWhile_sublist (fun x => x != '}')).length_le
    rw [hdw2] at h3
    simp only [List.length_cons] at *
    omega
  · simp [Nat.lt_succ_self]
  · simp [Nat.lt_succ_self]
  · simp [Nat.lt_succ_self]

/-- Scanning loop of re.sub for the accent patterns \X{([^}])} (tilde, acute,
diaeresis): a five-character match p1 p2 { c } with c not a closing brace is
replaced by c followed by the combining character. -/
def subAccent (p1 p2 comb : Char) : List Char → List Char
  | a :: b :: '{' :: c :: '}' :: rest =>
    if a = p1 ∧ b = p2 ∧ c ≠ '}' then c :: comb :: subAccent p1 p2 comb rest
    else a :: subAccent p1 p2 comb (b :: '{' :: c :: '}' :: rest)
  | a :: rest => a :: subAccent p1 p2 comb rest
  | [] => []

/-- Python str.replace(pat, rep): replace every non-overlapping occurrence,
scanning left to right (pat is nonempty at every call site; the guard keeps
the function total). -/
def replaceAll (pat rep : List Char) : List Char → List Char
  | [] => []
  | c :: rest =>
    if hcond : pat ≠ [] ∧ pat.isPrefixOf (c :: rest) then
      rep ++ replaceAll pat rep ((c :: rest).drop pat.length)
    else c :: replaceAll pat rep rest
termination_by s => s.length
decreasing_by
  · have : 1 ≤ pat.length := by
      cases hp : pat with
      | nil => exact absurd hp hcond.1
      | cons x xs => simp
    simp only [List.length_cons, List.length_drop]
    omega
  · simp [Nat.lt_succ_self]

/-- The clean_latex function, identical in both scripts: strip common LaTeX
markup from a value.  The substitutions are performed in the source order. -/
def clean_latex (s : List Char) : List Char :=
  let s1 := subCmd "\\textit".toList s
  let s2 := subCmd "\\textbf".toList s1
  let s3 := subCmd "\\emph".toList s2
  let s4 := subHref s3
  let s5 := subAccent '\\' '~' '\u0303' s4
  let s6 := replaceAll "\\~n".toList "ñ".toList (replaceAll "\\~\x7bn\x7d".toList "ñ".toList s5)
  let s7 := subAccent '\\' singleQuoteChar '\u0301' s6
  let s8 := subAccent '\\' quoteChar '\u0308' s7
  let s9 := replaceAll "\\&".toList "&".toList s8
  let s10 := replaceAll "\x7d".toList [] (replaceAll "\x7b".toList [] s9)
  pyStrip s10

/-- The field name whose value gets the en-dash postprocessing. -/
def pagesStr : List Char := "pages".toList

/-- BibTeX-style double hyphen replaced by a typographic en-dash. -/
def dashFix (v : List Char) : List Char :=
  replaceAll ['-', '-'] ['–'] v


/-- Result of one iteration of the field-extraction loop: the loop exits (no
further field pattern, or the pattern ends at the end of the body), raises
(unterminated quoted value), or extracts one name/value pair and leaves the
cursor at rest. -/
inductive FieldStep where
  | done
  | err
  | found (name value rest : List Char)
  deriving DecidableEq, Repr

/-- One iteration of the parse_bib_fields loop body, shared verbatim by both
scripts: search for the next (\w+)\s*=\s* pattern, then extract the value by
its first character (brace-delimited with nesting, quote-delimited, or a bare
token read up to the next comma and stripped).  An unterminated braced value
silently loses its final character (the source slices body[val_start+1:k-1]
with k already at len(body)); an unterminated quoted value raises. -/
def fieldStep (body : List Char) : FieldStep :=
  match searchFieldHead body with
  | none => .done
  | some (name, afterEq) =>
    match afterEq with
    | [] => .done
    | c :: vr =>
      if c = '{' then
        match braceRun 1 [] vr with
        | (v, r, d) => .found name (if d = 0 then v else v.dropLast) r
      else if c = quoteChar then
        match splitFirstQuote vr with
        | none => .err
        | some (v, r) => .found name v r
      else
        .found name (pyStrip ((c :: vr).takeWhile (fun x => x != ',')))
          ((c :: vr).dropWhile (fun x => x != ','))

theorem fieldStep_length {body name value rest : List Char}
    (h : fieldStep body = .found name value rest) : rest.length < body.length := by
  unfold fieldStep at h
  split at h
  · cases h
  · next name' afterEq heq =>
    have hlen := searchFieldHead_length heq
    split at h
    · cases h
    · next c vr =>
      split at h
      · split at h
        next v r d heq2 =>
        have hr : r.length ≤ vr.length := braceRun_length heq2
        injection h with h1 h2 h3
        subst h3
        simp only [List.length_cons] at hlen
        omega
      · split at h
        · split at h
          · cases h
          · next v r heq2 =>
            have hr := splitFirstQuote_length heq2
            injection h with h1 h2 h3
            subst h3
            simp only [List.length_cons] at hlen
            omega
        · injection h with h1 h2 h3
          subst h3
          have hr : ((c :: vr).dropWhile (fun x => x != ',')).length ≤ (c :: vr).length :=
            (List.dropWhile_sublist (fun x => x != ',')).length_le
          simp only [List.length_cons] at hlen hr
          omega

/-- Result of one iteration of the entry-scanning loop: the scan exits (no
further @type{ pattern), finds no comma after the opening brace, finds no
matching closing brace, or delimits one entry and leaves the cursor right
after its closing brace. -/
inductive EntryStep where
  | done
  | noComma (etype : List Char)
  | unmatched (etype key : List Char)
  | found (etype key body rest : List Char)
  deriving DecidableEq, Repr

/-- One iteration of the parse_bib loop body, shared verbatim by both scripts
up to fault handling: search for the next @(\w+)\s*\{ pattern, take the key
as everything up to the first comma from the position after the brace
(searching to the end of the text), then walk the brace depth from 1 until it
returns to 0.  The entry type is lowercased and the key stripped at the use
sites, as in the source. -/
def entryStep (text : List Char) : EntryStep :=
  match findEntryHead text with
  | none => .done
  | some (w, afterBrace) =>
    match splitFirstComma afterBrace with
    | none => .noComma w
    | some (key, afterComma) =>
      match braceRun 1 [] afterComma with
      | (body, rest, d) => if d ≠ 0 then .unmatched w key else .found w key body rest

theorem entryStep_length {text w key body rest : List Char}
    (h : entryStep text = .found w key body rest) : rest.length < text.length := by
  unfold entryStep at h
  split at h
  · cases h
  · next w' afterBrace heq =>
    have h1 := findEntryHead_length heq
    split at h
    · cases h
    · next key' afterComma heq2 =>
      have h2 := splitFirstComma_length heq2
      split at h
      next body' rest' d heq3 =>
      split at h
      · cases h
      · next hd =>
        have hd0 : d = 0 := Decidable.not_not.mp hd
        rw [hd0] at heq3
        injection h with ha hb hc hdr
        have h3 : rest'.length < afterComma.length :=
          braceRun_closed_length one_ne_zero heq3
        rw [hdr] at h3
        omega

namespace GenerateResearch

/-- Value postprocessing of _scripts/generate_research.py parse_bib_fields:
clean the value and, when the (lowercased) field name is pages, replace the
double hyphens inside the loop. -/
def procValue (name v : List Char) : List Char :=
  let cv := clean_latex v
  if name = pagesStr then dashFix cv else cv

/-- Field-extraction loop of parse_bib_fields in _scripts/generate_research.py,
iterating fieldStep from the cursor suffix: the Except error models the
uncaught ValueError of body.index on an unterminated quoted value; the break
statements of the source are the .ok exits. -/
def parse_bib_fields_go (fields : Fields) (body : List Char) : Except Unit Fields :=
  match hstep : fieldStep body with
  | .done => .ok fields
  | .err => .error ()
  | .found name value rest =>
    parse_bib_fields_go (insertField fields (lowerStr name) (procValue (lowerStr name) value)) rest
termination_by body.length
decreasing_by exact fieldStep_length hstep

/-- parse_bib_fields of _scripts/generate_research.py. -/
def parse_bib_fields (body : List Char) : Except Unit Fields :=
  parse_bib_fields_go [] body

/-- Entry-scanning loop of parse_bib in _scripts/generate_research.py: the
break statements on a missing comma or unmatched braces are silent exits
that keep the records produced so far; a ValueError escaping
parse_bib_fields propagates and discards everything. -/
def parse_bib (text : List Char) : Except Unit (List BibRecord) :=
  match hstep : entryStep text with
  | .done => .ok []
  | .noComma _ => .ok []
  | .unmatched _ _ => .ok []
  | .found w key body rest =>
    match parse_bib_fields body with
    | .error e => .error e
    | .ok fields =>
      match parse_bib rest with
      | .error e => .error e
      | .ok recs =>
        .ok ({ entry_type := lowerStr w, key := pyStrip key, fields := fields } :: recs)
termination_by text.length
decreasing_by exact entryStep_length hstep

end GenerateResearch

namespace CvBuild

/-- Field-extraction loop of parse_bib_fields in cv/build.py: identical to
the generate_research.py loop except that the pages en-dash conversion is
not done inside the loop. -/
def parse_bib_fields_go (fields : Fields) (body : List Char) : Except Unit Fields :=
  match hstep : fieldStep body with
  | .done => .ok fields
  | .err => .error ()
  | .found name value rest =>
    parse_bib_fields_go (insertField fields (lowerStr name) (clean_latex value)) rest
termination_by body.length
decreasing_by exact fieldStep_length hstep

/-- Post-loop conversion of cv/build.py parse_bib_fields: the pages value,
when present, has its BibTeX double hyphens replaced by en-dashes. -/
def pagesFixup (fields : Fields) : Fields :=
  match lookupField fields pagesStr with
  | some v => insertField fields pagesStr (dashFix v)
  | none => fields

/-- parse_bib_fields of cv/build.py. -/
def parse_bib_fields (body : List Char) : Except Unit Fields :=
  (parse_bib_fields_go [] body).map pagesFixup

/-- Errors raised by the strict parser of cv/build.py.  Every constructor
carries the source path interpolated at the head of the Python message; the
noComma message additionally interpolates a line number, a positional detail
not carried over to the suffix-based model. -/
inductive BibError where
  | noComma (path : List Char) (entryType : List Char)
  | unmatchedBraces (path : List Char) (entryType : List Char) (key : List Char)
  | fieldError (path : List Char) (entryType : List Char) (key : List Char)
  deriving DecidableEq, Repr

/-- Entry-scanning loop of parse_bib in cv/build.py: a missing comma after
the opening brace and unmatched braces raise descriptive ValueErrors, and an
exception from parse_bib_fields is wrapped naming the offending entry. -/
def parse_bib (path : List Char) (text : List Char) : Except BibError (List BibRecord) :=
  match hstep : entryStep text with
  | .done => .ok []
  | .noComma w => .error (.noComma path (lowerStr w))
  | .unmatched w key => .error (.unmatchedBraces path (lowerStr w) (pyStrip key))
  | .found w key body rest =>
    match parse_bib_fields body with
    | .error _ => .error (.fieldError path (lowerStr w) (pyStrip key))
    | .ok fields =>
      match parse_bib path rest with
      | .error e => .error e
      | .ok recs =>
        .ok ({ entry_type := lowerStr w, key := pyStrip key, fields := fields } :: recs)
termination_by text.length
decreasing_by exact entryStep_length hstep

end CvBuild


/-- Separator loop of re.split(r"\s+and\s+", raw): scan for a maximal
whitespace run followed by the literal letters of the word and followed by at
least one more whitespace character (again taken maximally); such a match
separates two parts.  A failed attempt advances one character, like the regex
engine. -/
def splitAnd_go (acc : List Char) : List Char → List (List Char)
  | [] => [acc.reverse]
  | c :: rest =>
    if isSpaceChar c then
      match hA : rest.dropWhile isSpaceChar with
      | 'a' :: 'n' :: 'd' :: d :: r2 =>
        if isSpaceChar d then acc.reverse :: splitAnd_go [] (r2.dropWhile isSpaceChar)
        else splitAnd_go (c :: acc) rest
      | _ => splitAnd_go (c :: acc) rest
    else splitAnd_go (c :: acc) rest
termination_by s => s.length
decreasing_by
  · have h1 : (r.dropWhile isSpaceChar).length ≤ r.length :=
      (List.dropWhile_sublist isSpaceChar).length_le
    rw [hA] at h1
    have h2 : (r2.dropWhile isSpaceChar).length ≤ r2.length :=
      (List.dropWhile_sublist isSpaceChar).length_le
    simp only [List.length_cons] at *
    omega
  · simp [Nat.lt_succ_self]
  · simp [Nat.lt_succ_self]
  · simp [Nat.lt_succ_self]

/-- re.split(r"\s+and\s+", raw): the list of parts. -/
def splitAnd (s : List Char) : List (List Char) :=
  splitAnd_go [] s

/-- Python str.join with a separator. -/
def joinSep (sep : List Char) : List (List Char) → List Char
  | [] => []
  | [x] => x
  | x :: rest => x ++ sep ++ joinSep sep rest

/-- The literal lowercase word recognized specially by format_authors. -/
def othersStr : List Char := "others".toList

/-- The format_authors function, identical in both scripts.  On the
unreachable empty author list (re.split always returns at least one part)
the Python code would raise an IndexError; the model returns the bare
Oxford separator there. -/
def format_authors (fields : Fields) : List Char :=
  match lookupField fields "authordisplay".toList with
  | some d => d
  | none =>
    let raw := (lookupField fields "author".toList).getD []
    let authors := (splitAnd raw).map pyStrip
    let formatted := authors.map (fun a => if lowerStr a = othersStr then othersStr else a)
    match formatted with
    | [a] => a
    | [a, b] => a ++ " and ".toList ++ b
    | l => joinSep ", ".toList l.dropLast ++ ", and ".toList ++ (l.getLast?.getD [])

theorem takeWhile_append_stop {p : Char → Bool} {w : List Char} {c : Char} {r : List Char}
    (hw : ∀ x ∈ w, p x = true) (hc : p c = false) :
    (w ++ c :: r).takeWhile p = w := by
  induction w with
  | nil => simp [List.takeWhile, hc]
  | cons a w ih =>
    have ha : p a = true := hw a (by simp)
    simp only [List.cons_append, List.takeWhile, ha, List.append_eq]
    rw [ih (fun x hx => hw x (by simp [hx]))]

theorem dropWhile_append_stop {p : Char → Bool} {w : List Char} {c : Char} {r : List Char}
    (hw : ∀ x ∈ w, p x = true) (hc : p c = false) :
    (w ++ c :: r).dropWhile p = c :: r := by
  induction w with
  | nil => simp [List.dropWhile, hc]
  | cons a w ih =>
    have ha : p a = true := hw a (by simp)
    simp only [List.cons_append, List.dropWhile, ha]
    exact ih (fun x hx => hw x (by simp [hx]))

theorem dropWhile_append_all {p : Char → Bool} {w t : List Char}
    (hw : ∀ x ∈ w, p x = true) :
    (w ++ t).dropWhile p = t.dropWhile p := by
  induction w with
  | nil => simp
  | cons a w ih =>
    have ha : p a = true := hw a (by simp)
    simp only [List.cons_append, List.dropWhile, ha]
    exact ih (fun x hx => hw x (by simp [hx]))

theorem splitFirstComma_through {k r : List Char} (hk : ',' ∉ k) :
    splitFirstComma (k ++ ',' :: r) = some (k, r) := by
  induction k with
  | nil => simp [splitFirstComma]
  | cons a k ih =>
    have ha : a ≠ ',' := by
      intro h
      exact hk (by simp [h])
    simp only [List.cons_append, splitFirstComma, if_neg ha, List.append_eq]
    rw [ih (fun h => hk (by simp [h]))]
    rfl

theorem splitFirstQuote_through {v r : List Char} (hv : quoteChar ∉ v) :
    splitFirstQuote (v ++ quoteChar :: r) = some (v, r) := by
  induction v with
  | nil => simp [splitFirstQuote]
  | cons a v ih =>
    have ha : a ≠ quoteChar := by
      intro h
      exact hv (by simp [h])
    simp only [List.cons_append, splitFirstQuote, if_neg ha, List.append_eq]
    rw [ih (fun h => hv (by simp [h]))]
    rfl

theorem splitFirstComma_none {g : List Char} (hg : ',' ∉ g) :
    splitFirstComma g = none := by
  induction g with
  | nil => rfl
  | cons a g ih =>
    have ha : a ≠ ',' := by
      intro h
      exact hg (by simp [h])
    simp only [splitFirstComma, if_neg ha]
    rw [ih (fun h => hg (by simp [h]))]
    rfl

theorem depthPos_cons {d : Int} {c : Char} {v : List Char} :
    depthPos d (c :: v) = true ↔ 0 < d + braceDelta c ∧ depthPos (d + braceDelta c) v = true := by
  simp [depthPos]

theorem deltaSum_nil : deltaSum [] = 0 := rfl

theorem deltaSum_cons {c : Char} {v : List Char} :
    deltaSum (c :: v) = braceDelta c + deltaSum v := by
  simp [deltaSum]

theorem depthPos_final {v : List Char} {d : Int} (hd : 0 < d)
    (h : depthPos d v = true) : 0 < d + deltaSum v := by
  induction v generalizing d with
  | nil => simpa [deltaSum] using hd
  | cons c v ih =>
    rw [depthPos_cons] at h
    have := ih h.1 h.2
    rw [deltaSum_cons]
    omega

theorem braceRun_append {v : List Char} {d : Nat} {acc rest : List Char}
    (h : depthPos (d : Int) v = true) :
    braceRun d acc (v ++ rest) = braceRun ((d : Int) + deltaSum v).toNat (v.reverse ++ acc) rest := by
  induction v generalizing d acc with
  | nil => simp [deltaSum]
  | cons c v ih =>
    rw [depthPos_cons] at h
    obtain ⟨h1, h2⟩ := h
    have hnz : (if c = '{' then d + 1 else if c = '}' then d - 1 else d) ≠ 0 := by
      by_cases hc1 : c = '{'
      · rw [if_pos hc1]
        omega
      · rw [if_neg hc1]
        by_cases hc2 : c = '}'
        · rw [if_pos hc2]
          have hb : braceDelta c = -1 := by simp only [braceDelta, if_neg hc1, if_pos hc2]
          rw [hb] at h1
          omega
        · rw [if_neg hc2]
          have hb : braceDelta c = 0 := by simp only [braceDelta, if_neg hc1, if_neg hc2]
          rw [hb] at h1
          omega
    have hcast : ((if c = '{' then d + 1 else if c = '}' then d - 1 else d : Nat) : Int)
        = (d : Int) + braceDelta c := by
      by_cases hc1 : c = '{'
      · rw [if_pos hc1]
        have hb : braceDelta c = 1 := by simp only [braceDelta, if_pos hc1]
        rw [hb]
        omega
      · rw [if_neg hc1]
        by_cases hc2 : c = '}'
        · rw [if_pos hc2]
          have hb : braceDelta c = -1 := by simp only [braceDelta, if_neg hc1, if_pos hc2]
          rw [hb] at h1 ⊢
          omega
        · rw [if_neg hc2]
          have hb : braceDelta c = 0 := by simp only [braceDelta, if_neg hc1, if_neg hc2]
          rw [hb]
          omega
    rw [List.cons_append]
    rw [show braceRun d acc (c :: (v ++ rest))
        = braceRun (if c = '{' then d + 1 else if c = '}' then d - 1 else d) (c :: acc) (v ++ rest) by
      simp only [braceRun]
      rw [if_neg hnz]]
    rw [ih (by rw [← hcast] at h2; exact h2)]
    congr 1
    · rw [hcast, deltaSum_cons]
      omega
    · simp

theorem braceRun_through {v : List Char} {acc rest : List Char}
    (h1 : depthPos 1 v = true) (h2 : deltaSum v = 0) :
    braceRun 1 acc (v ++ '}' :: rest) = (acc.reverse ++ v, rest, 0) := by
  rw [braceRun_append (by exact_mod_cast h1)]
  rw [h2]
  simp only [Int.add_zero, Int.toNat_one]
  simp [braceRun]

theorem braceRun_exhaust {g : List Char} {acc : List Char}
    (h : depthPos 1 g = true) :
    braceRun 1 acc g = (acc.reverse ++ g, [], (1 + deltaSum g).toNat)
      ∧ (1 + deltaSum g).toNat ≠ 0 := by
  constructor
  · have := @braceRun_append g 1 acc [] (by exact_mod_cast h)
    rw [List.append_nil] at this
    rw [this]
    simp [braceRun]
  · have := depthPos_final (d := 1) (by norm_num) h
    omega

theorem matchEntryHead_none_of_ne {c : Char} {r : List Char} (hc : c ≠ '@') :
    matchEntryHead (c :: r) = none := by
  simp [matchEntryHead, hc]

theorem findEntryHead_skip {s t : List Char} (hs : '@' ∉ s) :
    findEntryHead (s ++ t) = findEntryHead t := by
  induction s with
  | nil => simp
  | cons a s ih =>
    have ha : a ≠ '@' := by
      intro h
      exact hs (by simp [h])
    rw [List.cons_append]
    show (match matchEntryHead (a :: (s ++ t)) with
      | some p => some p
      | none => findEntryHead (s ++ t)) = findEntryHead t
    rw [matchEntryHead_none_of_ne ha]
    exact ih (fun h => hs (by simp [h]))

theorem findEntryHead_none {s : List Char} (hs : '@' ∉ s) :
    findEntryHead s = none := by
  have := findEntryHead_skip (t := []) hs
  rw [List.append_nil] at this
  rw [this]
  rfl

theorem isWordChar_brace : isWordChar '{' = false := by decide

theorem matchEntryHead_render {etype rest : List Char}
    (h1 : etype ≠ []) (h2 : ∀ c ∈ etype, isWordChar c = true) :
    matchEntryHead ('@' :: (etype ++ '{' :: rest)) = some (etype, rest) := by
  show (if ('@' : Char) = '@' then
      if (etype ++ '{' :: rest).takeWhile isWordChar = [] then none
      else
        match ((etype ++ '{' :: rest).dropWhile isWordChar).dropWhile isSpaceChar with
        | c2 :: r2 => if c2 = '{' then some ((etype ++ '{' :: rest).takeWhile isWordChar, r2) else none
        | [] => none
    else none) = some (etype, rest)
  rw [if_pos rfl]
  rw [takeWhile_append_stop h2 isWordChar_brace]
  rw [if_neg h1]
  rw [dropWhile_append_stop h2 isWordChar_brace]
  rw [show ('{' :: rest).dropWhile isSpaceChar = '{' :: rest from by
    rw [List.dropWhile_cons_of_neg]
    decide]
  rfl

theorem findEntryHead_render {sep etype rest : List Char}
    (h0 : '@' ∉ sep) (h1 : etype ≠ []) (h2 : ∀ c ∈ etype, isWordChar c = true) :
    findEntryHead (sep ++ '@' :: (etype ++ '{' :: rest)) = some (etype, rest) := by
  rw [findEntryHead_skip h0]
  show (match matchEntryHead ('@' :: (etype ++ '{' :: rest)) with
    | some p => some p
    | none => findEntryHead (etype ++ '{' :: rest)) = some (etype, rest)
  rw [matchEntryHead_render h1 h2]

theorem matchFieldHead_none_of_nonword {c : Char} {r : List Char}
    (hc : isWordChar c = false) :
    matchFieldHead (c :: r) = none := by
  have : (c :: r).takeWhile isWordChar = [] := by
    rw [List.takeWhile_cons_of_neg]
    simp [hc]
  simp [matchFieldHead, this]

theorem searchFieldHead_skip {s t : List Char} (hs : ∀ c ∈ s, isWordChar c = false) :
    searchFieldHead (s ++ t) = searchFieldHead t := by
  induction s with
  | nil => simp
  | cons a s ih =>
    rw [List.cons_append]
    show (match matchFieldHead (a :: (s ++ t)) with
      | some p => some p
      | none => searchFieldHead (s ++ t)) = searchFieldHead t
    rw [matchFieldHead_none_of_nonword (hs a (by simp))]
    exact ih (fun c hc => hs c (by simp [hc]))

theorem searchFieldHead_none {s : List Char} (hs : ∀ c ∈ s, isWordChar c = false) :
    searchFieldHead s = none := by
  have := searchFieldHead_skip (t := []) hs
  rw [List.append_nil] at this
  rw [this]
  rfl

theorem isWordChar_space : isWordChar ' ' = false := by decide

/-- Head of a list is not whitespace (vacuously true for the empty list). -/
def headNotSpace : List Char → Bool
  | [] => true
  | c :: _ => !isSpaceChar c

theorem dropWhile_space_of_headNotSpace {v : List Char} (hv : headNotSpace v = true) :
    v.dropWhile isSpaceChar = v := by
  cases v with
  | nil => rfl
  | cons c r =>
    rw [List.dropWhile_cons_of_neg]
    simp [headNotSpace] at hv
    simp [hv]

theorem matchFieldHead_render {name v : List Char}
    (h1 : name ≠ []) (h2 : ∀ c ∈ name, isWordChar c = true)
    (hv : headNotSpace v = true) :
    matchFieldHead (name ++ ' ' :: '=' :: ' ' :: v) = some (name, v) := by
  show (if (name ++ ' ' :: '=' :: ' ' :: v).takeWhile isWordChar = [] then none
    else
      match ((name ++ ' ' :: '=' :: ' ' :: v).dropWhile isWordChar).dropWhile isSpaceChar with
      | c2 :: r2 =>
        if c2 = '=' then some ((name ++ ' ' :: '=' :: ' ' :: v).takeWhile isWordChar,
          r2.dropWhile isSpaceChar) else none
      | [] => none) = some (name, v)
  rw [takeWhile_append_stop h2 isWordChar_space]
  rw [if_neg h1]
  rw [dropWhile_append_stop h2 isWordChar_space]
  rw [show (' ' :: '=' :: ' ' :: v).dropWhile isSpaceChar = '=' :: ' ' :: v from by
    rw [List.dropWhile_cons_of_pos (by decide)]
    rw [List.dropWhile_cons_of_neg (by decide)]]
  show (if ('=' : Char) = '=' then
    some (name, (' ' :: v).dropWhile isSpaceChar) else none) = some (name, v)
  rw [if_pos rfl]
  rw [List.dropWhile_cons_of_pos (by decide)]
  rw [dropWhile_space_of_headNotSpace hv]

theorem searchFieldHead_of_match {s : List Char} {p : List Char × List Char}
    (h1 : s ≠ []) (h : matchFieldHead s = some p) :
    searchFieldHead s = some p := by
  cases s with
  | nil => exact absurd rfl h1
  | cons c r =>
    show (match matchFieldHead (c :: r) with
      | some p => some p
      | none => searchFieldHead r) = some p
    rw [h]

/-- The three value shapes of the field grammar field = {value}, field =
"value", or a bare token, as described for the source parser. -/
inductive FieldVal where
  | braced (v : List Char)
  | quoted (v : List Char)
  | bare (v : List Char)
  deriving DecidableEq, Repr

/-- One field of an entry body. -/
structure BibField where
  name : List Char
  val : FieldVal
  deriving DecidableEq, Repr

/-- Concrete text of a field value. -/
def renderVal : FieldVal → List Char
  | .braced v => '{' :: (v ++ ['}'])
  | .quoted v => quoteChar :: (v ++ [quoteChar])
  | .bare v => v

/-- The value slice the Python loop extracts for each shape, before the
LaTeX cleanup (bare values are stripped first, exactly as in the source). -/
def rawVal : FieldVal → List Char
  | .braced v => v
  | .quoted v => v
  | .bare v => pyStrip v

/-- Concrete text of one field assignment. -/
def renderField (f : BibField) : List Char :=
  f.name ++ ' ' :: '=' :: ' ' :: renderVal f.val

/-- Concrete text of a comma-separated field list, with a separator before
every field. -/
def renderFieldsTail : List BibField → List Char
  | [] => []
  | f :: fs => ',' :: ' ' :: (renderField f ++ renderFieldsTail fs)

/-- Concrete text of an entry body: the comma-separated field list. -/
def renderFields : List BibField → List Char
  | [] => []
  | f :: fs => renderField f ++ renderFieldsTail fs

/-- Head of a list is not an opening brace or quote (vacuous for []). -/
def headNotOpen : List Char → Bool
  | [] => true
  | c :: _ => !(c = '{' || c = quoteChar)

/-- Well-formed field name: nonempty, made of word characters. -/
def wfNameB (n : List Char) : Bool :=
  decide (n ≠ []) && decide (∀ c ∈ n, isWordChar c = true)

/-- Well-formed field value: a braced value has balanced braces that never
close the value early; a quoted value has no interior quote; a bare value is
nonempty, comma-free and does not begin with whitespace, a brace or a
quote. -/
def wfValB : FieldVal → Bool
  | .braced v => depthPos 1 v && decide (deltaSum v = 0)
  | .quoted v => decide (quoteChar ∉ v)
  | .bare v => decide (v ≠ []) && decide (',' ∉ v) && headNotSpace v && headNotOpen v

/-- Well-formed field. -/
def wfFieldB (f : BibField) : Bool :=
  wfNameB f.name && wfValB f.val

/-- Well-formed field list. -/
def wfFieldsB (fs : List BibField) : Bool :=
  fs.all wfFieldB

theorem renderFieldsTail_shape (fs : List BibField) :
    renderFieldsTail fs = [] ∨ ∃ t', renderFieldsTail fs = ',' :: t' := by
  cases fs with
  | nil => exact Or.inl rfl
  | cons f fs => exact Or.inr ⟨_, rfl⟩

theorem headNotSpace_renderVal_append {fv : FieldVal} {t : List Char}
    (h : wfValB fv = true) : headNotSpace (renderVal fv ++ t) = true := by
  cases fv with
  | braced v => simp [renderVal, headNotSpace]; decide
  | quoted v => simp [renderVal, headNotSpace]; decide
  | bare v =>
    simp only [wfValB, Bool.and_eq_true, decide_eq_true_eq] at h
    obtain ⟨⟨⟨hne, _⟩, hsp⟩, _⟩ := h
    cases v with
    | nil => exact absurd rfl hne
    | cons c r =>
      simpa [renderVal, headNotSpace] using hsp

theorem searchFieldHead_renderField {f : BibField} {sep t : List Char}
    (hsep : ∀ c ∈ sep, isWordChar c = false)
    (hf : wfFieldB f = true) :
    searchFieldHead (sep ++ (renderField f ++ t)) = some (f.name, renderVal f.val ++ t) := by
  rw [searchFieldHead_skip hsep]
  have hn : wfNameB f.name = true := by
    simp only [wfFieldB, Bool.and_eq_true] at hf
    exact hf.1
  have hv : wfValB f.val = true := by
    simp only [wfFieldB, Bool.and_eq_true] at hf
    exact hf.2
  simp only [wfNameB, Bool.and_eq_true, decide_eq_true_eq] at hn
  obtain ⟨hne, hword⟩ := hn
  have hmatch : matchFieldHead (f.name ++ ' ' :: '=' :: ' ' :: (renderVal f.val ++ t))
      = some (f.name, renderVal f.val ++ t) :=
    matchFieldHead_render hne hword (headNotSpace_renderVal_append hv)
  have hshape : renderField f ++ t = f.name ++ ' ' :: '=' :: ' ' :: (renderVal f.val ++ t) := by
    simp [renderField]
  rw [hshape]
  apply searchFieldHead_of_match
  · cases hx : f.name with
    | nil => exact absurd hx hne
    | cons a as => simp [hx]
  · exact hmatch

/-- Result of one iteration of the generate_research.py field loop on a
rendered field. -/
def stepA (acc : Fields) (f : BibField) : Fields :=
  insertField acc (lowerStr f.name) (GenerateResearch.procValue (lowerStr f.name) (rawVal f.val))

/-- Fields accumulated by the generate_research.py loop over a field list. -/
def collectA (acc : Fields) : List BibField → Fields
  | [] => acc
  | f :: fs => collectA (stepA acc f) fs

/-- Result of one iteration of the cv/build.py field loop on a rendered
field (no pages processing inside the loop). -/
def stepB (acc : Fields) (f : BibField) : Fields :=
  insertField acc (lowerStr f.name) (clean_latex (rawVal f.val))

/-- Fields accumulated by the cv/build.py loop over a field list. -/
def collectB (acc : Fields) : List BibField → Fields
  | [] => acc
  | f :: fs => collectB (stepB acc f) fs

theorem takeWhile_all_of {p : Char → Bool} {v : List Char}
    (h : ∀ c ∈ v, p c = true) : v.takeWhile p = v := by
  induction v with
  | nil => rfl
  | cons c r ih =>
    rw [List.takeWhile_cons_of_pos (h c (by simp))]
    rw [ih (fun c hc => h c (by simp [hc]))]

theorem dropWhile_all_of {p : Char → Bool} {v : List Char}
    (h : ∀ c ∈ v, p c = true) : v.dropWhile p = [] := by
  induction v with
  | nil => rfl
  | cons c r ih =>
    rw [List.dropWhile_cons_of_pos (h c (by simp))]
    exact ih (fun c hc => h c (by simp [hc]))

theorem fieldStep_renderField {f : BibField} {sep t : List Char}
    (hsep : ∀ c ∈ sep, isWordChar c = false)
    (hf : wfFieldB f = true)
    (ht : t = [] ∨ ∃ t', t = ',' :: t') :
    fieldStep (sep ++ (renderField f ++ t)) = .found f.name (rawVal f.val) t := by
  obtain ⟨nm, val⟩ := f
  have hv : wfValB val = true := by
    simp only [wfFieldB, Bool.and_eq_true] at hf
    exact hf.2
  have hsearch := searchFieldHead_renderField (t := t) hsep hf
  cases val with
  | braced v =>
    simp only [wfValB, Bool.and_eq_true, decide_eq_true_eq] at hv
    obtain ⟨hdp, hds⟩ := hv
    have hthrough : braceRun 1 [] ((v ++ ['}']) ++ t) = (v, t, 0) := by
      rw [show (v ++ ['}']) ++ t = v ++ ('}' :: t) from by simp]
      simpa using @braceRun_through v [] t hdp hds
    unfold fieldStep
    rw [hsearch]
    simp only [renderVal, List.cons_append]
    rw [if_pos trivial, hthrough]
    rfl
  | quoted v =>
    simp only [wfValB, decide_eq_true_eq] at hv
    have hquote : splitFirstQuote ((v ++ [quoteChar]) ++ t) = some (v, t) := by
      rw [show (v ++ [quoteChar]) ++ t = v ++ (quoteChar :: t) from by simp]
      exact splitFirstQuote_through hv
    unfold fieldStep
    rw [hsearch]
    simp only [renderVal, List.cons_append]
    rw [if_pos trivial, hquote]
    rw [if_neg (by decide : ¬(quoteChar = '{'))]
    rfl
  | bare v =>
    simp only [wfValB, Bool.and_eq_true, decide_eq_true_eq] at hv
    obtain ⟨⟨⟨hne, hcomma⟩, hnsp⟩, hnopen⟩ := hv
    cases hv0 : v with
    | nil => exact absurd hv0 hne
    | cons c0 v0 =>
      subst hv0
      have hc1 : c0 ≠ '{' := by
        simp only [headNotOpen, Bool.not_eq_true', Bool.or_eq_false_iff,
          decide_eq_false_iff_not] at hnopen
        exact hnopen.1
      have hc2 : c0 ≠ quoteChar := by
        simp only [headNotOpen, Bool.not_eq_true', Bool.or_eq_false_iff,
          decide_eq_false_iff_not] at hnopen
        exact hnopen.2
      have hall : ∀ x ∈ c0 :: v0, (x != ',') = true := by
        intro x hx
        simp only [bne_iff_ne, ne_eq]
        intro hx'
        subst hx'
        exact hcomma hx
      have htake : (c0 :: (v0 ++ t)).takeWhile (fun x => x != ',') = c0 :: v0 := by
        rcases ht with h | ⟨t', h⟩
        · subst h
          rw [List.append_nil]
          exact takeWhile_all_of hall
        · subst h
          rw [show (c0 :: (v0 ++ ',' :: t')) = (c0 :: v0) ++ ',' :: t' from by simp]
          exact takeWhile_append_stop hall (by simp)
      have hdrop : (c0 :: (v0 ++ t)).dropWhile (fun x => x != ',') = t := by
        rcases ht with h | ⟨t', h⟩
        · subst h
          rw [List.append_nil]
          exact dropWhile_all_of hall
        · subst h
          rw [show (c0 :: (v0 ++ ',' :: t')) = (c0 :: v0) ++ ',' :: t' from by simp]
          exact dropWhile_append_stop hall (by simp)
      unfold fieldStep
      rw [hsearch]
      simp only [renderVal, List.cons_append]
      rw [if_neg hc1, if_neg hc2, htake, hdrop]
      rfl

theorem goA_of_step_done {acc : Fields} {body : List Char}
    (h : fieldStep body = .done) :
    GenerateResearch.parse_bib_fields_go acc body = .ok acc := by
  rw [GenerateResearch.parse_bib_fields_go]
  split
  · rfl
  · next hstep =>
    rw [h] at hstep
    cases hstep
  · next n v r hstep =>
    rw [h] at hstep
    cases hstep

theorem goA_of_step_err {acc : Fields} {body : List Char}
    (h : fieldStep body = .err) :
    GenerateResearch.parse_bib_fields_go acc body = .error () := by
  rw [GenerateResearch.parse_bib_fields_go]
  split
  · next hstep =>
    rw [h] at hstep
    cases hstep
  · rfl
  · next n v r hstep =>
    rw [h] at hstep
    cases hstep

theorem goA_of_step_found {acc : Fields} {body n v r : List Char}
    (h : fieldStep body = .found n v r) :
    GenerateResearch.parse_bib_fields_go acc body
      = GenerateResearch.parse_bib_fields_go
          (insertField acc (lowerStr n) (GenerateResearch.procValue (lowerStr n) v)) r := by
  rw [GenerateResearch.parse_bib_fields_go]
  split
  · next hstep =>
    rw [h] at hstep
    cases hstep
  · next hstep =>
    rw [h] at hstep
    cases hstep
  · next n' v' r' hstep =>
    rw [h] at hstep
    injection hstep with h1 h2 h3
    subst h1
    subst h2
    subst h3
    rfl

theorem goB_of_step_done {acc : Fields} {body : List Char}
    (h : fieldStep body = .done) :
    CvBuild.parse_bib_fields_go acc body = .ok acc := by
  rw [CvBuild.parse_bib_fields_go]
  split
  · rfl
  · next hstep =>
    rw [h] at hstep
    cases hstep
  · next n v r hstep =>
    rw [h] at hstep
    cases hstep

theorem goB_of_step_err {acc : Fields} {body : List Char}
    (h : fieldStep body = .err) :
    CvBuild.parse_bib_fields_go acc body = .error () := by
  rw [CvBuild.parse_bib_fields_go]
  split
  · next hstep =>
    rw [h] at hstep
    cases hstep
  · rfl
  · next n v r hstep =>
    rw [h] at hstep
    cases hstep

theorem goB_of_step_found {acc : Fields} {body n v r : List Char}
    (h : fieldStep body = .found n v r) :
    CvBuild.parse_bib_fields_go acc body
      = CvBuild.parse_bib_fields_go (insertField acc (lowerStr n) (clean_latex v)) r := by
  rw [CvBuild.parse_bib_fields_go]
  split
  · next hstep =>
    rw [h] at hstep
    cases hstep
  · next hstep =>
    rw [h] at hstep
    cases hstep
  · next n' v' r' hstep =>
    rw [h] at hstep
    injection hstep with h1 h2 h3
    subst h1
    subst h2
    subst h3
    rfl

theorem fieldStep_nil : fieldStep [] = .done := rfl

theorem wfFieldsB_cons {f : BibField} {fs : List BibField}
    (h : wfFieldsB (f :: fs) = true) : wfFieldB f = true ∧ wfFieldsB fs = true := by
  simp only [wfFieldsB, List.all_cons, Bool.and_eq_true] at h
  exact ⟨h.1, by simpa [wfFieldsB] using h.2⟩

theorem goA_tail (fs : List BibField) (acc : Fields) (h : wfFieldsB fs = true) :
    GenerateResearch.parse_bib_fields_go acc (renderFieldsTail fs) = .ok (collectA acc fs) := by
  induction fs generalizing acc with
  | nil => exact goA_of_step_done fieldStep_nil
  | cons f fs ih =>
    obtain ⟨hf, hfs⟩ := wfFieldsB_cons h
    have hstep : fieldStep (renderFieldsTail (f :: fs))
        = .found f.name (rawVal f.val) (renderFieldsTail fs) := by
      rw [show renderFieldsTail (f :: fs)
          = [',', ' '] ++ (renderField f ++ renderFieldsTail fs) from by
        simp [renderFieldsTail]]
      exact fieldStep_renderField (by decide) hf (renderFieldsTail_shape fs)
    rw [goA_of_step_found hstep]
    rw [ih _ hfs]
    rfl

theorem goA_render (fs : List BibField) (acc : Fields) (h : wfFieldsB fs = true) :
    GenerateResearch.parse_bib_fields_go acc (renderFields fs) = .ok (collectA acc fs) := by
  cases fs with
  | nil => exact goA_of_step_done fieldStep_nil
  | cons f fs =>
    obtain ⟨hf, hfs⟩ := wfFieldsB_cons h
    have hstep : fieldStep (renderFields (f :: fs))
        = .found f.name (rawVal f.val) (renderFieldsTail fs) := by
      rw [show renderFields (f :: fs)
          = [] ++ (renderField f ++ renderFieldsTail fs) from by
        simp [renderFields]]
      exact fieldStep_renderField (by simp) hf (renderFieldsTail_shape fs)
    rw [goA_of_step_found hstep]
    rw [goA_tail _ _ hfs]
    rfl

theorem parse_bib_fields_A_render (fs : List BibField) (h : wfFieldsB fs = true) :
    GenerateResearch.parse_bib_fields (renderFields fs) = .ok (collectA [] fs) :=
  goA_render fs [] h

theorem goB_tail (fs : List BibField) (acc : Fields) (h : wfFieldsB fs = true) :
    CvBuild.parse_bib_fields_go acc (renderFieldsTail fs) = .ok (collectB acc fs) := by
  induction fs generalizing acc with
  | nil => exact goB_of_step_done fieldStep_nil
  | cons f fs ih =>
    obtain ⟨hf, hfs⟩ := wfFieldsB_cons h
    have hstep : fieldStep (renderFieldsTail (f :: fs))
        = .found f.name (rawVal f.val) (renderFieldsTail fs) := by
      rw [show renderFieldsTail (f :: fs)
          = [',', ' '] ++ (renderField f ++ renderFieldsTail fs) from by
        simp [renderFieldsTail]]
      exact fieldStep_renderField (by decide) hf (renderFieldsTail_shape fs)
    rw [goB_of_step_found hstep]
    rw [ih _ hfs]
    rfl

theorem goB_render (fs : List BibField) (acc : Fields) (h : wfFieldsB fs = true) :
    CvBuild.parse_bib_fields_go acc (renderFields fs) = .ok (collectB acc fs) := by
  cases fs with
  | nil => exact goB_of_step_done fieldStep_nil
  | cons f fs =>
    obtain ⟨hf, hfs⟩ := wfFieldsB_cons h
    have hstep : fieldStep (renderFields (f :: fs))
        = .found f.name (rawVal f.val) (renderFieldsTail fs) := by
      rw [show renderFields (f :: fs)
          = [] ++ (renderField f ++ renderFieldsTail fs) from by
        simp [renderFields]]
      exact fieldStep_renderField (by simp) hf (renderFieldsTail_shape fs)
    rw [goB_of_step_found hstep]
    rw [goB_tail _ _ hfs]
    rfl

theorem parse_bib_fields_B_render (fs : List BibField) (h : wfFieldsB fs = true) :
    CvBuild.parse_bib_fields (renderFields fs) = .ok (CvBuild.pagesFixup (collectB [] fs)) := by
  unfold CvBuild.parse_bib_fields
  rw [goB_render fs [] h]
  rfl

/-- One well-formed entry of a bibliography text: the free text before the
@ sign, the entry type, the citation key, and the body fields. -/
structure BibEntry where
  sep : List Char
  etype : List Char
  key : List Char
  fields : List BibField
  deriving DecidableEq, Repr

/-- Concrete text of one entry together with the text preceding it. -/
def renderEntry (e : BibEntry) : List Char :=
  e.sep ++ '@' :: (e.etype ++ '{' :: (e.key ++ ',' :: (renderFields e.fields ++ ['}'])))

/-- Concrete text of a sequence of entries. -/
def renderEntries : List BibEntry → List Char
  | [] => []
  | e :: es => renderEntry e ++ renderEntries es

/-- Well-formed entry: the separator has no @ sign, the type is a nonempty
word, the key has no comma, the fields are well formed, and the rendered body
is brace-balanced and never closes the entry brace early. -/
def wfEntryB (e : BibEntry) : Bool :=
  decide ('@' ∉ e.sep) && decide (e.etype ≠ []) &&
    decide (∀ c ∈ e.etype, isWordChar c = true) &&
    decide (',' ∉ e.key) && wfFieldsB e.fields &&
    depthPos 1 (renderFields e.fields) &&
    decide (deltaSum (renderFields e.fields) = 0)

/-- Well-formed entry sequence. -/
def wfEntriesB (es : List BibEntry) : Bool :=
  es.all wfEntryB

/-- The record the generate_research.py parser produces for one well-formed
entry. -/
def recordOfA (e : BibEntry) : BibRecord :=
  { entry_type := lowerStr e.etype, key := pyStrip e.key, fields := collectA [] e.fields }

/-- The record the cv/build.py parser produces for one well-formed entry. -/
def recordOfB (e : BibEntry) : BibRecord :=
  { entry_type := lowerStr e.etype, key := pyStrip e.key,
    fields := CvBuild.pagesFixup (collectB [] e.fields) }

theorem wfEntryB_parts {e : BibEntry} (h : wfEntryB e = true) :
    '@' ∉ e.sep ∧ e.etype ≠ [] ∧ (∀ c ∈ e.etype, isWordChar c = true) ∧
    ',' ∉ e.key ∧ wfFieldsB e.fields = true ∧
    depthPos 1 (renderFields e.fields) = true ∧
    deltaSum (renderFields e.fields) = 0 := by
  simp only [wfEntryB, Bool.and_eq_true, decide_eq_true_eq] at h
  exact ⟨h.1.1.1.1.1.1, h.1.1.1.1.1.2, h.1.1.1.1.2, h.1.1.1.2, h.1.1.2, h.1.2, h.2⟩

theorem entryStep_renderEntry {e : BibEntry} {rest : List Char}
    (he : wfEntryB e = true) :
    entryStep (renderEntry e ++ rest)
      = .found e.etype e.key (renderFields e.fields) rest := by
  obtain ⟨hsep, hne, hword, hkey, hfs, hdp, hds⟩ := wfEntryB_parts he
  have hshape : renderEntry e ++ rest
      = e.sep ++ '@' :: (e.etype ++ '{' ::
          (e.key ++ ',' :: (renderFields e.fields ++ '}' :: rest))) := by
    simp [renderEntry]
  have hbr : braceRun 1 [] (renderFields e.fields ++ '}' :: rest)
      = (renderFields e.fields, rest, 0) := by
    simpa using @braceRun_through (renderFields e.fields) [] rest hdp hds
  rw [hshape]
  unfold entryStep
  rw [findEntryHead_render hsep hne hword]
  simp only [splitFirstComma_through hkey, hbr]
  simp

theorem entryStep_noComma {sep etype g : List Char}
    (hsep : '@' ∉ sep) (hne : etype ≠ [])
    (hword : ∀ c ∈ etype, isWordChar c = true) (hg : ',' ∉ g) :
    entryStep (sep ++ '@' :: (etype ++ '{' :: g)) = .noComma etype := by
  unfold entryStep
  rw [findEntryHead_render hsep hne hword]
  simp only [splitFirstComma_none hg]

theorem entryStep_unmatched {sep etype key g : List Char}
    (hsep : '@' ∉ sep) (hne : etype ≠ [])
    (hword : ∀ c ∈ etype, isWordChar c = true) (hkey : ',' ∉ key)
    (hg : depthPos 1 g = true) :
    entryStep (sep ++ '@' :: (etype ++ '{' :: (key ++ ',' :: g)))
      = .unmatched etype key := by
  obtain ⟨hrun, hdz⟩ := @braceRun_exhaust g [] hg
  unfold entryStep
  rw [findEntryHead_render hsep hne hword]
  simp only [splitFirstComma_through hkey, List.reverse_nil, List.nil_append] at hrun ⊢
  simp only [hrun]
  simp [hdz]

theorem entryStep_done {t : List Char} (h : '@' ∉ t) : entryStep t = .done := by
  unfold entryStep
  rw [findEntryHead_none h]

theorem parseA_of_step_done {text : List Char} (h : entryStep text = .done) :
    GenerateResearch.parse_bib text = .ok [] := by
  rw [GenerateResearch.parse_bib]
  split
  all_goals rename_i heq
  all_goals rw [h] at heq
  all_goals cases heq
  all_goals rfl

theorem parseA_of_step_noComma {text w : List Char}
    (h : entryStep text = .noComma w) :
    GenerateResearch.parse_bib text = .ok [] := by
  rw [GenerateResearch.parse_bib]
  split
  all_goals rename_i heq
  all_goals rw [h] at heq
  all_goals cases heq
  all_goals rfl

theorem parseA_of_step_unmatched {text w k : List Char}
    (h : entryStep text = .unmatched w k) :
    GenerateResearch.parse_bib text = .ok [] := by
  rw [GenerateResearch.parse_bib]
  split
  all_goals rename_i heq
  all_goals rw [h] at heq
  all_goals cases heq
  all_goals rfl

theorem parseA_of_step_found {text w k b r : List Char}
    (h : entryStep text = .found w k b r) :
    GenerateResearch.parse_bib text
      = match GenerateResearch.parse_bib_fields b with
        | .error e => .error e
        | .ok fields =>
          match GenerateResearch.parse_bib r with
          | .error e => .error e
          | .ok recs =>
            .ok ({ entry_type := lowerStr w, key := pyStrip k, fields := fields } :: recs) := by
  rw [GenerateResearch.parse_bib]
  split
  all_goals rename_i heq
  all_goals rw [h] at heq
  all_goals cases heq
  all_goals rfl

theorem parseS_of_step_done {path text : List Char} (h : entryStep text = .done) :
    CvBuild.parse_bib path text = .ok [] := by
  rw [CvBuild.parse_bib]
  split
  all_goals rename_i heq
  all_goals rw [h] at heq
  all_goals cases heq
  all_goals rfl

theorem parseS_of_step_noComma {path text w : List Char}
    (h : entryStep text = .noComma w) :
    CvBuild.parse_bib path text = .error (.noComma path (lowerStr w)) := by
  rw [CvBuild.parse_bib]
  split
  all_goals rename_i heq
  all_goals rw [h] at heq
  all_goals cases heq
  all_goals rfl

theorem parseS_of_step_unmatched {path text w k : List Char}
    (h : entryStep text = .unmatched w k) :
    CvBuild.parse_bib path text
      = .error (.unmatchedBraces path (lowerStr w) (pyStrip k)) := by
  rw [CvBuild.parse_bib]
  split
  all_goals rename_i heq
  all_goals rw [h] at heq
  all_goals cases heq
  all_goals rfl

theorem parseS_of_step_found {path text w k b r : List Char}
    (h : entryStep text = .found w k b r) :
    CvBuild.parse_bib path text
      = match CvBuild.parse_bib_fields b with
        | .error _ => .error (.fieldError path (lowerStr w) (pyStrip k))
        | .ok fields =>
          match CvBuild.parse_bib path r with
          | .error e => .error e
          | .ok recs =>
            .ok ({ entry_type := lowerStr w, key := pyStrip k, fields := fields } :: recs) := by
  rw [CvBuild.parse_bib]
  split
  all_goals rename_i heq
  all_goals rw [h] at heq
  all_goals cases heq
  all_goals rfl

theorem wfEntriesB_cons {e : BibEntry} {es : List BibEntry}
    (h : wfEntriesB (e :: es) = true) : wfEntryB e = true ∧ wfEntriesB es = true := by
  simp only [wfEntriesB, List.all_cons, Bool.and_eq_true] at h
  exact ⟨h.1, by simpa [wfEntriesB] using h.2⟩

theorem parseA_render (es : List BibEntry) (tail : List Char)
    (hwf : wfEntriesB es = true) (htail : '@' ∉ tail) :
    GenerateResearch.parse_bib (renderEntries es ++ tail) = .ok (es.map recordOfA) := by
  induction es with
  | nil =>
    rw [show renderEntries [] ++ tail = tail from by simp [renderEntries]]
    rw [parseA_of_step_done (entryStep_done htail)]
    rfl
  | cons e es ih =>
    obtain ⟨he, hes⟩ := wfEntriesB_cons hwf
    have hfs : wfFieldsB e.fields = true := (wfEntryB_parts he).2.2.2.2.1
    have hstep : entryStep (renderEntries (e :: es) ++ tail)
        = .found e.etype e.key (renderFields e.fields) (renderEntries es ++ tail) := by
      rw [show renderEntries (e :: es) ++ tail
          = renderEntry e ++ (renderEntries es ++ tail) from by simp [renderEntries]]
      exact entryStep_renderEntry he
    rw [parseA_of_step_found hstep]
    rw [parse_bib_fields_A_render _ hfs]
    rw [ih hes]
    rfl

theorem parseS_render (path : List Char) (es : List BibEntry) (tail : List Char)
    (hwf : wfEntriesB es = true) (htail : '@' ∉ tail) :
    CvBuild.parse_bib path (renderEntries es ++ tail) = .ok (es.map recordOfB) := by
  induction es with
  | nil =>
    rw [show renderEntries [] ++ tail = tail from by simp [renderEntries]]
    rw [parseS_of_step_done (entryStep_done htail)]
    rfl
  | cons e es ih =>
    obtain ⟨he, hes⟩ := wfEntriesB_cons hwf
    have hfs : wfFieldsB e.fields = true := (wfEntryB_parts he).2.2.2.2.1
    have hstep : entryStep (renderEntries (e :: es) ++ tail)
        = .found e.etype e.key (renderFields e.fields) (renderEntries es ++ tail) := by
      rw [show renderEntries (e :: es) ++ tail
          = renderEntry e ++ (renderEntries es ++ tail) from by simp [renderEntries]]
      exact entryStep_renderEntry he
    rw [parseS_of_step_found hstep]
    rw [parse_bib_fields_B_render _ hfs]
    rw [ih hes]
    rfl

theorem parseA_render_gen (es : List BibEntry) (tail : List Char) (l : List BibRecord)
    (hwf : wfEntriesB es = true)
    (htail : GenerateResearch.parse_bib tail = .ok l) :
    GenerateResearch.parse_bib (renderEntries es ++ tail) = .ok (es.map recordOfA ++ l) := by
  induction es with
  | nil =>
    rw [show renderEntries [] ++ tail = tail from by simp [renderEntries]]
    rw [htail]
    rfl
  | cons e es ih =>
    obtain ⟨he, hes⟩ := wfEntriesB_cons hwf
    have hfs : wfFieldsB e.fields = true := (wfEntryB_parts he).2.2.2.2.1
    have hstep : entryStep (renderEntries (e :: es) ++ tail)
        = .found e.etype e.key (renderFields e.fields) (renderEntries es ++ tail) := by
      rw [show renderEntries (e :: es) ++ tail
          = renderEntry e ++ (renderEntries es ++ tail) from by simp [renderEntries]]
      exact entryStep_renderEntry he
    rw [parseA_of_step_found hstep]
    rw [parse_bib_fields_A_render _ hfs]
    rw [ih hes]
    rfl

theorem parseS_render_err (path : List Char) (es : List BibEntry) (tail : List Char)
    (err : CvBuild.BibError) (hwf : wfEntriesB es = true)
    (htail : CvBuild.parse_bib path tail = .error err) :
    CvBuild.parse_bib path (renderEntries es ++ tail) = .error err := by
  induction es with
  | nil =>
    rw [show renderEntries [] ++ tail = tail from by simp [renderEntries]]
    exact htail
  | cons e es ih =>
    obtain ⟨he, hes⟩ := wfEntriesB_cons hwf
    have hfs : wfFieldsB e.fields = true := (wfEntryB_parts he).2.2.2.2.1
    have hstep : entryStep (renderEntries (e :: es) ++ tail)
        = .found e.etype e.key (renderFields e.fields) (renderEntries es ++ tail) := by
      rw [show renderEntries (e :: es) ++ tail
          = renderEntry e ++ (renderEntries es ++ tail) from by simp [renderEntries]]
      exact entryStep_renderEntry he
    rw [parseS_of_step_found hstep]
    rw [parse_bib_fields_B_render _ hfs]
    rw [ih hes]

theorem isPrefixOf_cons_head {x y : Char} {l r : List Char}
    (h : (x :: l).isPrefixOf (y :: r) = true) : x = y := by
  simp only [List.isPrefixOf, Bool.and_eq_true, beq_iff_eq] at h
  exact h.1

theorem subCmd_id {c0 : Char} {cmd' s : List Char} (h : c0 ∉ s) :
    subCmd (c0 :: cmd') s = s := by
  induction s using subCmd.induct (c0 :: cmd') with
  | case1 => simp [subCmd]
  | case2 c r hpre r3 hdrop ih =>
    rw [List.cons_append] at hpre
    have := isPrefixOf_cons_head hpre
    exact absurd (this ▸ List.mem_cons_self c r) h
  | case3 c r hpre hnone ih =>
    rw [List.cons_append] at hpre
    have := isPrefixOf_cons_head hpre
    exact absurd (this ▸ List.mem_cons_self c r) h
  | case4 c r hpre ih =>
    rw [subCmd]
    rw [if_neg hpre]
    rw [ih (fun hm => h (List.mem_cons_of_mem c hm))]

theorem subHref_id {s : List Char} (h : '\\' ∉ s) :
    subHref s = s := by
  induction s using subHref.induct with
  | case1 => simp [subHref]
  | case2 c r hpre r3 hdrop r5 hdrop2 ih =>
    have := isPrefixOf_cons_head hpre
    exact absurd (this ▸ List.mem_cons_self c r) h
  | case3 c r hpre r3 hdrop hnone ih =>
    have := isPrefixOf_cons_head hpre
    exact absurd (this ▸ List.mem_cons_self c r) h
  | case4 c r hpre hnone ih =>
    have := isPrefixOf_cons_head hpre
    exact absurd (this ▸ List.mem_cons_self c r) h
  | case5 c r hpre ih =>
    rw [subHref]
    rw [if_neg hpre]
    rw [ih (fun hm => h (List.mem_cons_of_mem c hm))]

theorem subAccent_id {p1 p2 comb : Char} {s : List Char} (h : p1 ∉ s) :
    subAccent p1 p2 comb s = s := by
  induction s using subAccent.induct p1 p2 comb with
  | case1 a b c rest hcond ih =>
    exact absurd (hcond.1 ▸ List.mem_cons_self a _) h
  | case2 a b c rest hcond ih =>
    rw [subAccent.eq_1]
    rw [if_neg hcond]
    rw [ih (fun hm => h (List.mem_cons_of_mem a hm))]
  | case3 a rest hshape ih =>
    rw [subAccent.eq_2 _ _ _ _ _ hshape]
    rw [ih (fun hm => h (List.mem_cons_of_mem a hm))]
  | case4 => rfl

theorem replaceAll_id {c0 : Char} {pat' rep s : List Char} (h : c0 ∉ s) :
    replaceAll (c0 :: pat') rep s = s := by
  induction s using replaceAll.induct (c0 :: pat') rep with
  | case1 => simp [replaceAll]
  | case2 c r hcond ih =>
    have := isPrefixOf_cons_head hcond.2
    exact absurd (this ▸ List.mem_cons_self c r) h
  | case3 c r hcond ih =>
    rw [replaceAll]
    rw [dif_neg hcond]
    rw [ih (fun hm => h (List.mem_cons_of_mem c hm))]

theorem mem_replaceAll {x : Char} {pat rep s : List Char}
    (h : x ∈ replaceAll pat rep s) : x ∈ s ∨ x ∈ rep := by
  induction s using replaceAll.induct pat rep with
  | case1 => simp [replaceAll] at h
  | case2 c r hcond ih =>
    rw [replaceAll, dif_pos hcond] at h
    rcases List.mem_append.mp h with hx | hx
    · exact Or.inr hx
    · rcases ih hx with hx | hx
      · exact Or.inl (List.mem_of_mem_drop hx)
      · exact Or.inr hx
  | case3 c r hcond ih =>
    rw [replaceAll, dif_neg hcond] at h
    rcases List.mem_cons.mp h with hx | hx
    · exact Or.inl (by simp [hx])
    · rcases ih hx with hx | hx
      · exact Or.inl (List.mem_cons_of_mem c hx)
      · exact Or.inr hx

theorem replaceAll_single_removes {x : Char} {rep s : List Char} (hrep : x ∉ rep) :
    x ∉ replaceAll [x] rep s := by
  induction s using replaceAll.induct [x] rep with
  | case1 => simp [replaceAll]
  | case2 c r hcond ih =>
    rw [replaceAll, dif_pos hcond]
    intro hm
    rcases List.mem_append.mp hm with hx | hx
    · exact hrep hx
    · exact ih hx
  | case3 c r hcond ih =>
    rw [replaceAll, dif_neg hcond]
    intro hm
    rcases List.mem_cons.mp hm with hx | hx
    · apply hcond
      refine ⟨by simp, ?_⟩
      subst hx
      simp [List.isPrefixOf]
    · exact ih hx

theorem dropWhile_head_false {p : Char → Bool} {s r : List Char} {c : Char}
    (h : s.dropWhile p = c :: r) : p c = false := by
  induction s with
  | nil => cases h
  | cons a s ih =>
    by_cases ha : p a = true
    · rw [List.dropWhile_cons_of_pos ha] at h
      exact ih h
    · rw [List.dropWhile_cons_of_neg ha] at h
      injection h with h1 h2
      subst h1
      simpa using ha

theorem dropWhile_idem {p : Char → Bool} (s : List Char) :
    (s.dropWhile p).dropWhile p = s.dropWhile p := by
  cases h : s.dropWhile p with
  | nil => rfl
  | cons c r =>
    have hc := dropWhile_head_false (p := p) h
    rw [List.dropWhile_cons_of_neg (by simp [hc])]

theorem trimRight_idem (s : List Char) : trimRight (trimRight s) = trimRight s := by
  unfold trimRight
  rw [List.reverse_reverse]
  unfold trimLeft
  rw [dropWhile_idem]

theorem trimRight_isPrefix (s : List Char) : trimRight s <+: s := by
  unfold trimRight trimLeft
  have hsuf : s.reverse.dropWhile isSpaceChar <:+ s.reverse := List.dropWhile_suffix _
  have h2 := (@List.reverse_prefix Char (s.reverse.dropWhile isSpaceChar)
    s.reverse).mpr hsuf
  rwa [List.reverse_reverse] at h2

theorem trimLeft_trimRight_trimLeft (s : List Char) :
    trimLeft (trimRight (trimLeft s)) = trimRight (trimLeft s) := by
  cases h : trimRight (trimLeft s) with
  | nil => rfl
  | cons c r =>
    have hpre := trimRight_isPrefix (trimLeft s)
    rw [h] at hpre
    obtain ⟨u, hu⟩ := hpre
    have hc : isSpaceChar c = false := by
      apply dropWhile_head_false (s := s) (r := r ++ u)
      have hx : trimLeft s = c :: (r ++ u) := by
        rw [← hu]
        simp
      exact hx
    unfold trimLeft
    exact List.dropWhile_cons_of_neg (by simp [hc])

theorem pyStrip_idem (s : List Char) : pyStrip (pyStrip s) = pyStrip s := by
  unfold pyStrip
  rw [trimLeft_trimRight_trimLeft]
  rw [trimRight_idem]

theorem mem_pyStrip {x : Char} {s : List Char} (h : x ∈ pyStrip s) : x ∈ s := by
  unfold pyStrip at h
  have h1 : x ∈ trimLeft s := ((trimRight_isPrefix (trimLeft s)).sublist).subset h
  unfold trimLeft at h1
  exact (List.dropWhile_sublist isSpaceChar).subset h1

theorem clean_latex_plain {s : List Char}
    (h1 : '\\' ∉ s) (h2 : '{' ∉ s) (h3 : '}' ∉ s) :
    clean_latex s = pyStrip s := by
  have e1 : subCmd "\\textit".toList s = s := subCmd_id h1
  have e2 : subCmd "\\textbf".toList s = s := subCmd_id h1
  have e3 : subCmd "\\emph".toList s = s := subCmd_id h1
  have e4 : subHref s = s := subHref_id h1
  have e5 : subAccent '\\' '~' '\u0303' s = s := subAccent_id h1
  have e6 : replaceAll "\\~\x7bn\x7d".toList "ñ".toList s = s := replaceAll_id h1
  have e7 : replaceAll "\\~n".toList "ñ".toList s = s := replaceAll_id h1
  have e8 : subAccent '\\' singleQuoteChar '\u0301' s = s := subAccent_id h1
  have e9 : subAccent '\\' quoteChar '\u0308' s = s := subAccent_id h1
  have e10 : replaceAll "\\&".toList "&".toList s = s := replaceAll_id h1
  have e11 : replaceAll "\x7b".toList [] s = s := replaceAll_id h2
  have e12 : replaceAll "\x7d".toList [] s = s := replaceAll_id h3
  unfold clean_latex
  simp only [e1, e2, e3, e4, e5, e6, e7, e8, e9, e10, e11, e12]

theorem clean_latex_no_braces (s : List Char) :
    '{' ∉ clean_latex s ∧ '}' ∉ clean_latex s := by
  unfold clean_latex
  constructor
  · intro hm
    have hx := mem_pyStrip hm
    rcases mem_replaceAll hx with hy | hy
    · exact replaceAll_single_removes (by simp) hy
    · simp at hy
  · intro hm
    have hx := mem_pyStrip hm
    exact replaceAll_single_removes (by simp) hx

theorem pyStrip_clean_latex (s : List Char) :
    pyStrip (clean_latex s) = clean_latex s := by
  unfold clean_latex
  exact pyStrip_idem _

theorem subCmd_id_of_not_infix {cmd s : List Char} (h : ¬ (cmd ++ ['{']) <:+: s) :
    subCmd cmd s = s := by
  induction s using subCmd.induct cmd with
  | case1 => simp [subCmd]
  | case2 c r hpre r3 hdrop ih =>
    exact absurd (List.isPrefixOf_iff_prefix.mp hpre).isInfix h
  | case3 c r hpre hnone ih =>
    exact absurd (List.isPrefixOf_iff_prefix.mp hpre).isInfix h
  | case4 c r hpre ih =>
    rw [subCmd]
    rw [if_neg hpre]
    rw [ih (fun hi => h (List.infix_cons hi))]

theorem subHref_id_of_not_infix {s : List Char} (h : ¬ hrefPat <:+: s) :
    subHref s = s := by
  induction s using subHref.induct with
  | case1 => simp [subHref]
  | case2 c r hpre r3 hdrop r5 hdrop2 ih =>
    exact absurd (List.isPrefixOf_iff_prefix.mp hpre).isInfix h
  | case3 c r hpre r3 hdrop hnone ih =>
    exact absurd (List.isPrefixOf_iff_prefix.mp hpre).isInfix h
  | case4 c r hpre hnone ih =>
    exact absurd (List.isPrefixOf_iff_prefix.mp hpre).isInfix h
  | case5 c r hpre ih =>
    rw [subHref]
    rw [if_neg hpre]
    rw [ih (fun hi => h (List.infix_cons hi))]

theorem replaceAll_id_of_not_infix {pat rep s : List Char} (h : ¬ pat <:+: s) :
    replaceAll pat rep s = s := by
  induction s using replaceAll.induct pat rep with
  | case1 => simp [replaceAll]
  | case2 c r hcond ih =>
    exact absurd (List.isPrefixOf_iff_prefix.mp hcond.2).isInfix h
  | case3 c r hcond ih =>
    rw [replaceAll]
    rw [dif_neg hcond]
    rw [ih (fun hi => h (List.infix_cons hi))]

theorem clean_latex_tilde_braced :
    clean_latex "\\~\x7bn\x7d".toList = ['n', '\u0303'] := by
  have e1 : subCmd "\\textit".toList "\\~\x7bn\x7d".toList = "\\~\x7bn\x7d".toList :=
    subCmd_id_of_not_infix (by decide)
  have e2 : subCmd "\\textbf".toList "\\~\x7bn\x7d".toList = "\\~\x7bn\x7d".toList :=
    subCmd_id_of_not_infix (by decide)
  have e3 : subCmd "\\emph".toList "\\~\x7bn\x7d".toList = "\\~\x7bn\x7d".toList :=
    subCmd_id_of_not_infix (by decide)
  have e4 : subHref "\\~\x7bn\x7d".toList = "\\~\x7bn\x7d".toList :=
    subHref_id_of_not_infix (by decide)
  have e5 : subAccent '\\' '~' '\u0303' "\\~\x7bn\x7d".toList = ['n', '\u0303'] := by decide
  have e6 : replaceAll "\\~\x7bn\x7d".toList "ñ".toList ['n', '\u0303'] = ['n', '\u0303'] :=
    replaceAll_id_of_not_infix (by decide)
  have e7 : replaceAll "\\~n".toList "ñ".toList ['n', '\u0303'] = ['n', '\u0303'] :=
    replaceAll_id_of_not_infix (by decide)
  have e8 : subAccent '\\' singleQuoteChar '\u0301' ['n', '\u0303'] = ['n', '\u0303'] := by decide
  have e9 : subAccent '\\' quoteChar '\u0308' ['n', '\u0303'] = ['n', '\u0303'] := by decide
  have e10 : replaceAll "\\&".toList "&".toList ['n', '\u0303'] = ['n', '\u0303'] :=
    replaceAll_id_of_not_infix (by decide)
  have e11 : replaceAll "\x7b".toList [] ['n', '\u0303'] = ['n', '\u0303'] :=
    replaceAll_id_of_not_infix (by decide)
  have e12 : replaceAll "\x7d".toList [] ['n', '\u0303'] = ['n', '\u0303'] :=
    replaceAll_id_of_not_infix (by decide)
  unfold clean_latex
  simp only [e1, e2, e3, e4, e5, e6, e7, e8, e9, e10, e11, e12]
  decide

/-- Some whitespace character immediately followed by the letters of the
separator word occurs somewhere in the string. -/
def containsWsAnd : List Char → Bool
  | a :: b :: c :: d :: rest =>
    (isSpaceChar a && (b == 'a') && (c == 'n') && (d == 'd'))
      || containsWsAnd (b :: c :: d :: rest)
  | _ => false

/-- Last character of a list is not whitespace (vacuous for []). -/
def lastNotSpace (l : List Char) : Bool :=
  headNotSpace l.reverse

/-- Head of a list is whitespace, or the list is empty. -/
def headSpaceOrNil : List Char → Bool
  | [] => true
  | c :: _ => isSpaceChar c

theorem containsWsAnd_cons : ∀ {l : List Char} {c : Char},
    containsWsAnd l = true → containsWsAnd (c :: l) = true
  | a :: b :: d :: e :: r, c, h => by
    show ((isSpaceChar c && (a == 'a') && (b == 'n') && (d == 'd'))
      || containsWsAnd (a :: b :: d :: e :: r)) = true
    rw [h]
    simp
  | [], _, h => by simp [containsWsAnd] at h
  | [a], _, h => by simp [containsWsAnd] at h
  | [a, b], _, h => by simp [containsWsAnd] at h
  | [a, b, d], _, h => by simp [containsWsAnd] at h

theorem containsWsAnd_cons_false {l : List Char} {c : Char}
    (h : containsWsAnd (c :: l) = false) : containsWsAnd l = false := by
  cases hl : containsWsAnd l with
  | false => rfl
  | true => rw [containsWsAnd_cons hl] at h; cases h

theorem containsWsAnd_of_dropWhile {x : Char} {s' v : List Char}
    (hx : isSpaceChar x = true)
    (h : s'.dropWhile isSpaceChar = 'a' :: 'n' :: 'd' :: v) :
    containsWsAnd (x :: s') = true := by
  induction s' generalizing x with
  | nil => cases h
  | cons b s'' ih =>
    by_cases hb : isSpaceChar b = true
    · rw [List.dropWhile_cons_of_pos hb] at h
      exact containsWsAnd_cons (ih hb h)
    · rw [List.dropWhile_cons_of_neg hb] at h
      injection h with h1 h2
      subst h1
      subst h2
      show ((isSpaceChar x && ('a' == 'a') && ('n' == 'n') && ('d' == 'd'))
        || containsWsAnd ('a' :: 'n' :: 'd' :: v)) = true
      rw [hx]
      simp

theorem dropWhile_append_left {p : Char → Bool} {s z : List Char} {y : Char} {s'' : List Char}
    (h : s.dropWhile p = y :: s'') :
    (s ++ z).dropWhile p = y :: (s'' ++ z) := by
  induction s with
  | nil => cases h
  | cons a s ih =>
    by_cases ha : p a = true
    · rw [List.dropWhile_cons_of_pos ha] at h
      rw [List.cons_append, List.dropWhile_cons_of_pos ha]
      exact ih h
    · rw [List.dropWhile_cons_of_neg ha] at h
      injection h with h1 h2
      subst h1
      rw [List.cons_append, List.dropWhile_cons_of_neg ha]
      rw [h2]

theorem dropWhile_ne_nil_of_lastNotSpace {s : List Char} (hne : s ≠ [])
    (h : lastNotSpace s = true) :
    ∃ y s'', s.dropWhile isSpaceChar = y :: s'' ∧ isSpaceChar y = false := by
  cases hd : s.dropWhile isSpaceChar with
  | nil =>
    exfalso
    have hall : ∀ c ∈ s, isSpaceChar c = true := by
      intro c hc
      by_contra hcc
      have hcc' : isSpaceChar c = false := by
        cases hx : isSpaceChar c with
        | false => rfl
        | true => exact absurd hx hcc
      have : c ∈ s.dropWhile isSpaceChar ∨ c ∈ s.takeWhile isSpaceChar := by
        have := s.takeWhile_append_dropWhile isSpaceChar
        rw [← this] at hc
        rcases List.mem_append.mp hc with h1 | h1
        · exact Or.inr h1
        · exact Or.inl h1
      rcases this with h1 | h1
      · rw [hd] at h1
        cases h1
      · exact absurd (List.mem_takeWhile_imp h1) (by simp [hcc'])
    have hlast : s.getLast hne ∈ s := List.getLast_mem hne
    have h1 := hall _ hlast
    unfold lastNotSpace headNotSpace at h
    cases hrev : s.reverse with
    | nil => exact hne (by simpa using congrArg List.reverse hrev)
    | cons c r =>
      rw [hrev] at h
      have hc : c ∈ s := by
        have : c ∈ s.reverse := by rw [hrev]; simp
        simpa using this
      have := hall c hc
      simp [headNotSpace, this] at h
  | cons y s'' =>
    exact ⟨y, s'', rfl, dropWhile_head_false hd⟩

theorem lastNotSpace_cons {x : Char} {s : List Char} (hne : s ≠ [])
    (h : lastNotSpace (x :: s) = true) : lastNotSpace s = true := by
  unfold lastNotSpace at h ⊢
  rw [List.reverse_cons] at h
  cases hrev : s.reverse with
  | nil => exact absurd (by simpa using congrArg List.reverse hrev) hne
  | cons c r =>
    rw [hrev] at h
    simpa [headNotSpace] using h

theorem headNotSpace_append {n z : List Char} (hne : n ≠ [])
    (h : headNotSpace n = true) : headNotSpace (n ++ z) = true := by
  cases n with
  | nil => exact absurd rfl hne
  | cons c r => simpa [headNotSpace] using h

theorem splitAnd_go_space_skip {x : Char} {acc s' z : List Char}
    (hx : isSpaceChar x = true)
    (hflag : containsWsAnd (x :: s') = false)
    (hns : ∃ y s'', s'.dropWhile isSpaceChar = y :: s'' ∧ isSpaceChar y = false)
    (hz : headSpaceOrNil z = true) :
    splitAnd_go acc (x :: (s' ++ z)) = splitAnd_go (x :: acc) (s' ++ z) := by
  obtain ⟨y, s'', hdrop, hy⟩ := hns
  have hdropz : (s' ++ z).dropWhile isSpaceChar = y :: (s'' ++ z) :=
    dropWhile_append_left hdrop
  rw [splitAnd_go]
  rw [if_pos hx]
  split
  · next d r2 hA =>
    have heq : y :: (s'' ++ z) = 'a' :: 'n' :: 'd' :: d :: r2 := by
      rw [← hdropz, hA]
    injection heq with hy1 heq2
    by_cases hd : isSpaceChar d = true
    · exfalso
      cases s'' with
      | nil =>
        simp only [List.nil_append] at heq2
        rw [heq2] at hz
        simp only [headSpaceOrNil] at hz
        exact absurd hz (by decide)
      | cons c1 s1 =>
        rw [List.cons_append] at heq2
        injection heq2 with hc1 heq3
        cases s1 with
        | nil =>
          simp only [List.nil_append] at heq3
          rw [heq3] at hz
          simp only [headSpaceOrNil] at hz
          exact absurd hz (by decide)
        | cons c2 s2 =>
          rw [List.cons_append] at heq3
          injection heq3 with hc2 heq4
          subst hy1
          subst hc1
          subst hc2
          exact absurd (containsWsAnd_of_dropWhile hx hdrop) (by simp [hflag])
    · rw [if_neg hd]
  · rfl

theorem splitAnd_go_last (s : List Char) : ∀ acc, containsWsAnd s = false →
    lastNotSpace s = true → splitAnd_go acc s = [acc.reverse ++ s] := by
  induction s with
  | nil =>
    intro acc _ _
    rw [splitAnd_go]
    simp
  | cons x s' ih =>
    intro acc hflag hlast
    by_cases hx : isSpaceChar x = true
    · have hs'ne : s' ≠ [] := by
        intro h
        subst h
        unfold lastNotSpace headNotSpace at hlast
        simp [hx] at hlast
      have hlast' : lastNotSpace s' = true := lastNotSpace_cons hs'ne hlast
      have hns := dropWhile_ne_nil_of_lastNotSpace hs'ne hlast'
      have hskip := @splitAnd_go_space_skip x acc s' [] hx hflag hns rfl
      rw [List.append_nil] at hskip
      rw [hskip]
      rw [ih (x :: acc) (containsWsAnd_cons_false hflag) hlast']
      simp
    · rw [splitAnd_go, if_neg hx]
      have hlast' : lastNotSpace s' = true := by
        cases hs : s' with
        | nil => rfl
        | cons a b => exact lastNotSpace_cons (by simp) (hs ▸ hlast)
      rw [ih (x :: acc) (containsWsAnd_cons_false hflag) hlast']
      simp

theorem splitAnd_go_through (s r : List Char) : ∀ acc, containsWsAnd s = false →
    lastNotSpace s = true → headNotSpace r = true →
    splitAnd_go acc (s ++ (' ' :: 'a' :: 'n' :: 'd' :: ' ' :: r))
      = (acc.reverse ++ s) :: splitAnd_go [] r := by
  induction s with
  | nil =>
    intro acc _ _ hr
    simp only [List.nil_append]
    rw [splitAnd_go]
    rw [if_pos (by decide : isSpaceChar ' ' = true)]
    have hA : ('a' :: 'n' :: 'd' :: ' ' :: r).dropWhile isSpaceChar
        = 'a' :: 'n' :: 'd' :: ' ' :: r := by
      rw [List.dropWhile_cons_of_neg (by decide)]
    split
    · next d r2 heq =>
      rw [hA] at heq
      cases heq
      rw [if_pos (by decide : isSpaceChar ' ' = true)]
      rw [dropWhile_space_of_headNotSpace hr]
      simp
    · next heq =>
      exact absurd hA (heq ' ' r)
  | cons x s' ih =>
    intro acc hflag hlast hr
    rw [List.cons_append]
    by_cases hx : isSpaceChar x = true
    · have hs'ne : s' ≠ [] := by
        intro h
        subst h
        unfold lastNotSpace headNotSpace at hlast
        simp [hx] at hlast
      have hlast' : lastNotSpace s' = true := lastNotSpace_cons hs'ne hlast
      have hns := dropWhile_ne_nil_of_lastNotSpace hs'ne hlast'
      have hskip := @splitAnd_go_space_skip x acc s'
        (' ' :: 'a' :: 'n' :: 'd' :: ' ' :: r) hx hflag hns rfl
      rw [hskip]
      rw [ih (x :: acc) (containsWsAnd_cons_false hflag) hlast' hr]
      simp
    · rw [splitAnd_go, if_neg hx]
      have hlast' : lastNotSpace s' = true := by
        cases hs : s' with
        | nil => rfl
        | cons a b => exact lastNotSpace_cons (by simp) (hs ▸ hlast)
      rw [ih (x :: acc) (containsWsAnd_cons_false hflag) hlast' hr]
      simp

theorem splitAnd_join : ∀ (names : List (List Char)), names ≠ [] →
    (∀ n ∈ names, n ≠ [] ∧ headNotSpace n = true ∧ lastNotSpace n = true ∧
      containsWsAnd n = false) →
    splitAnd (joinSep " and ".toList names) = names
  | [], h, _ => absurd rfl h
  | [n], _, hwf => by
    obtain ⟨hne, hh, hl, hf⟩ := hwf n (by simp)
    show splitAnd_go [] (joinSep " and ".toList [n]) = [n]
    rw [show joinSep " and ".toList [n] = n from rfl]
    rw [splitAnd_go_last n [] hf hl]
    simp
  | n :: m :: names', _, hwf => by
    obtain ⟨hne, hh, hl, hf⟩ := hwf n (by simp)
    obtain ⟨hmne, hmh, hml, hmf⟩ := hwf m (by simp)
    have hhead : headNotSpace (joinSep " and ".toList (m :: names')) = true := by
      cases names' with
      | nil => exact hmh
      | cons p ps =>
        rw [show joinSep " and ".toList (m :: p :: ps)
            = m ++ (" and ".toList ++ joinSep " and ".toList (p :: ps)) from by
          rw [joinSep.eq_3 " and ".toList m (p :: ps) (fun h => List.noConfusion h)]
          rw [List.append_assoc]]
        exact headNotSpace_append hmne hmh
    show splitAnd_go [] (joinSep " and ".toList (n :: m :: names')) = n :: m :: names'
    rw [show joinSep " and ".toList (n :: m :: names')
        = n ++ (' ' :: 'a' :: 'n' :: 'd' :: ' ' :: joinSep " and ".toList (m :: names'))
        from by
      rw [joinSep.eq_3 " and ".toList n (m :: names') (fun h => List.noConfusion h)]
      rw [List.append_assoc]
      rfl]
    rw [splitAnd_go_through n _ [] hf hl hhead]
    have := splitAnd_join (m :: names') (by simp)
      (fun p hp => hwf p (List.mem_cons_of_mem n hp))
    unfold splitAnd at this
    rw [this]
    simp

theorem pyStrip_eq_self {n : List Char} (hh : headNotSpace n = true)
    (hl : lastNotSpace n = true) : pyStrip n = n := by
  unfold pyStrip trimRight trimLeft
  rw [dropWhile_space_of_headNotSpace hh]
  rw [dropWhile_space_of_headNotSpace hl]
  simp

/-- The author rendering the spec describes, corrected for the code's actual
splitting and normalization: names are the authors (already split on the
separator), each is replaced by the literal lowercase word when its lowercase
form is that word, then joined per arity (one: alone; two: with " and ";
three or more: Oxford comma). -/
def renderAuthors (names : List (List Char)) : List Char :=
  match names.map (fun a => if lowerStr a = othersStr then othersStr else a) with
  | [a] => a
  | [a, b] => a ++ " and ".toList ++ b
  | l => joinSep ", ".toList l.dropLast ++ ", and ".toList ++ (l.getLast?.getD [])

theorem format_authors_display {fields : Fields} {d : List Char}
    (hd : lookupField fields "authordisplay".toList = some d) :
    format_authors fields = d := by
  unfold format_authors
  simp only [hd]

theorem format_authors_render {fields : Fields} {names : List (List Char)}
    (hnd : lookupField fields "authordisplay".toList = none)
    (hau : lookupField fields "author".toList = some (joinSep " and ".toList names))
    (hne : names ≠ [])
    (hwf : ∀ n ∈ names, n ≠ [] ∧ headNotSpace n = true ∧ lastNotSpace n = true ∧
      containsWsAnd n = false) :
    format_authors fields = renderAuthors names := by
  unfold format_authors renderAuthors
  simp only [hnd, hau, Option.getD_some]
  rw [splitAnd_join names hne hwf]
  have hmap : names.map pyStrip = names := by
    have h1 : ∀ n ∈ names, pyStrip n = n := fun n hn =>
      pyStrip_eq_self (hwf n hn).2.1 (hwf n hn).2.2.1
    calc names.map pyStrip = names.map id := List.map_congr_left h1
    _ = names := List.map_id names
  rw [hmap]

theorem lookup_insertField_self (fields : Fields) (k v : List Char) :
    lookupField (insertField fields k v) k = some v := by
  induction fields with
  | nil => simp [insertField, lookupField]
  | cons p rest ih =>
    obtain ⟨k', v'⟩ := p
    by_cases hk : k' = k
    · simp [insertField, lookupField, hk]
    · simp only [insertField, lookupField, if_neg hk]
      exact ih

theorem lookup_insertField_ne (fields : Fields) {k k' : List Char}
    (h : k' ≠ k) (v : List Char) :
    lookupField (insertField fields k v) k' = lookupField fields k' := by
  have h' : ¬ k = k' := fun he => h he.symm
  induction fields with
  | nil => simp only [insertField, lookupField, if_neg h']
  | cons p rest ih =>
    obtain ⟨k0, v0⟩ := p
    by_cases hk : k0 = k
    · subst hk
      simp only [insertField, if_pos rfl, lookupField]
      rw [if_neg h', if_neg h']
    · simp only [insertField, lookupField, if_neg hk]
      by_cases hk' : k0 = k'
      · simp [hk']
      · simp only [if_neg hk']
        exact ih

theorem lookup_collectA_skip (fs : List BibField) (k : List Char)
    (hk : ∀ g ∈ fs, lowerStr g.name ≠ k) : ∀ acc : Fields,
    lookupField (collectA acc fs) k = lookupField acc k := by
  induction fs with
  | nil => intro acc; rfl
  | cons g fs ih =>
    intro acc
    rw [collectA]
    rw [ih (fun g' hg' => hk g' (List.mem_cons_of_mem g hg'))]
    exact lookup_insertField_ne acc (fun he => hk g (List.mem_cons_self g fs) he.symm) _

theorem lookup_collectB_skip (fs : List BibField) (k : List Char)
    (hk : ∀ g ∈ fs, lowerStr g.name ≠ k) : ∀ acc : Fields,
    lookupField (collectB acc fs) k = lookupField acc k := by
  induction fs with
  | nil => intro acc; rfl
  | cons g fs ih =>
    intro acc
    rw [collectB]
    rw [ih (fun g' hg' => hk g' (List.mem_cons_of_mem g hg'))]
    exact lookup_insertField_ne acc (fun he => hk g (List.mem_cons_self g fs) he.symm) _

theorem lookup_collectA_mem {fs : List BibField} {f : BibField} (hf : f ∈ fs)
    (hnd : (fs.map (fun g => lowerStr g.name)).Nodup) : ∀ acc : Fields,
    lookupField (collectA acc fs) (lowerStr f.name)
      = some (GenerateResearch.procValue (lowerStr f.name) (rawVal f.val)) := by
  induction fs with
  | nil => cases hf
  | cons g fs ih =>
    intro acc
    rw [collectA]
    rcases List.mem_cons.mp hf with heq | hmem
    · subst heq
      have hnotin : ∀ g' ∈ fs, lowerStr g'.name ≠ lowerStr f.name := by
        intro g' hg' hcontra
        have h1 : lowerStr f.name ∈ fs.map (fun g => lowerStr g.name) := by
          rw [List.mem_map]
          exact ⟨g', hg', hcontra⟩
        exact (List.nodup_cons.mp hnd).1 h1
      rw [lookup_collectA_skip fs _ hnotin]
      exact lookup_insertField_self acc _ _
    · exact ih hmem (List.nodup_cons.mp hnd).2 _

theorem lookup_collectB_mem {fs : List BibField} {f : BibField} (hf : f ∈ fs)
    (hnd : (fs.map (fun g => lowerStr g.name)).Nodup) : ∀ acc : Fields,
    lookupField (collectB acc fs) (lowerStr f.name)
      = some (clean_latex (rawVal f.val)) := by
  induction fs with
  | nil => cases hf
  | cons g fs ih =>
    intro acc
    rw [collectB]
    rcases List.mem_cons.mp hf with heq | hmem
    · subst heq
      have hnotin : ∀ g' ∈ fs, lowerStr g'.name ≠ lowerStr f.name := by
        intro g' hg' hcontra
        have h1 : lowerStr f.name ∈ fs.map (fun g => lowerStr g.name) := by
          rw [List.mem_map]
          exact ⟨g', hg', hcontra⟩
        exact (List.nodup_cons.mp hnd).1 h1
      rw [lookup_collectB_skip fs _ hnotin]
      exact lookup_insertField_self acc _ _
    · exact ih hmem (List.nodup_cons.mp hnd).2 _

theorem lookup_pagesFixup_pages {fields : Fields} {v : List Char}
    (h : lookupField fields pagesStr = some v) :
    lookupField (CvBuild.pagesFixup fields) pagesStr = some (dashFix v) := by
  unfold CvBuild.pagesFixup
  simp only [h]
  exact lookup_insertField_self fields _ _

theorem lookup_pagesFixup_ne {fields : Fields} {k : List Char} (h : k ≠ pagesStr) :
    lookupField (CvBuild.pagesFixup fields) k = lookupField fields k := by
  unfold CvBuild.pagesFixup
  cases hp : lookupField fields pagesStr with
  | none => rfl
  | some v => exact lookup_insertField_ne fields h _
theorem clean_latex_tilde_plain :
    clean_latex "\\~n".toList = "ñ".toList := by
  show clean_latex ['\\', '~', 'n'] = "ñ".toList
  have e1 : subCmd "\\textit".toList ['\\', '~', 'n'] = ['\\', '~', 'n'] :=
    subCmd_id_of_not_infix (by decide)
  have e2 : subCmd "\\textbf".toList ['\\', '~', 'n'] = ['\\', '~', 'n'] :=
    subCmd_id_of_not_infix (by decide)
  have e3 : subCmd "\\emph".toList ['\\', '~', 'n'] = ['\\', '~', 'n'] :=
    subCmd_id_of_not_infix (by decide)
  have e4 : subHref ['\\', '~', 'n'] = ['\\', '~', 'n'] :=
    subHref_id_of_not_infix (by decide)
  have e5 : subAccent '\\' '~' '\u0303' ['\\', '~', 'n'] = ['\\', '~', 'n'] := by decide
  have e6a : replaceAll "\\~\x7bn\x7d".toList "ñ".toList ['\\', '~', 'n'] = ['\\', '~', 'n'] :=
    replaceAll_id_of_not_infix (by decide)
  have e6b : replaceAll "\\~n".toList "ñ".toList ['\\', '~', 'n'] = "ñ".toList := by
    rw [replaceAll]
    rw [dif_pos (by decide : ("\\~n".toList ≠ [] ∧ "\\~n".toList.isPrefixOf ('\\' :: ['~', 'n'])))]
    rw [show ((('\\' :: ['~', 'n']).drop "\\~n".toList.length) : List Char) = [] from by decide]
    rw [replaceAll]
    rfl
  have e7 : subAccent '\\' singleQuoteChar '\u0301' "ñ".toList = "ñ".toList := by decide
  have e8 : subAccent '\\' quoteChar '\u0308' "ñ".toList = "ñ".toList := by decide
  have e9 : replaceAll "\\&".toList "&".toList "ñ".toList = "ñ".toList :=
    replaceAll_id_of_not_infix (by decide)
  have e10 : replaceAll "\x7b".toList [] "ñ".toList = "ñ".toList :=
    replaceAll_id_of_not_infix (by decide)
  have e11 : replaceAll "\x7d".toList [] "ñ".toList = "ñ".toList :=
    replaceAll_id_of_not_infix (by decide)
  unfold clean_latex
  simp only [e1, e2, e3, e4, e5, e6a, e6b, e7, e8, e9, e10, e11]
  decide

/-- C1: on well-formed input rendering a list of entries, both parsers return
exactly one record per entry, in source order, with the lowercased entry type
and the whitespace-trimmed key. -/
theorem claim_C1 (es : List BibEntry) (path : List Char) (hwf : wfEntriesB es = true) :
    GenerateResearch.parse_bib (renderEntries es) = .ok (es.map recordOfA) ∧
    CvBuild.parse_bib path (renderEntries es) = .ok (es.map recordOfB) ∧
    (es.map recordOfA).length = es.length ∧
    (es.map recordOfB).length = es.length ∧
    (∀ e ∈ es, (recordOfA e).entry_type = lowerStr e.etype ∧ (recordOfA e).key = pyStrip e.key) ∧
    (∀ e ∈ es, (recordOfB e).entry_type = lowerStr e.etype ∧ (recordOfB e).key = pyStrip e.key) := by
  refine ⟨?_, ?_, by simp, by simp, fun e _ => ⟨rfl, rfl⟩, fun e _ => ⟨rfl, rfl⟩⟩
  · have := parseA_render es [] hwf (by decide)
    rwa [List.append_nil] at this
  · have := parseS_render path es [] hwf (by decide)
    rwa [List.append_nil] at this

theorem claim_C1_witness :
    wfEntriesB [(⟨[], "Article".toList, "doe2020".toList,
        [⟨"title".toList, FieldVal.braced "A Study".toList⟩]⟩ : BibEntry)] = true ∧
    GenerateResearch.parse_bib (renderEntries [(⟨[], "Article".toList, "doe2020".toList,
        [⟨"title".toList, FieldVal.braced "A Study".toList⟩]⟩ : BibEntry)])
      = .ok ([(⟨[], "Article".toList, "doe2020".toList,
        [⟨"title".toList, FieldVal.braced "A Study".toList⟩]⟩ : BibEntry)].map recordOfA) :=
  ⟨by decide,
   (claim_C1 [(⟨[], "Article".toList, "doe2020".toList,
      [⟨"title".toList, FieldVal.braced "A Study".toList⟩]⟩ : BibEntry)] [] (by decide)).1⟩

/-- C2: corrected form of the no-comma policy: when an entry has no comma
after its opening brace, the generate_research.py parser stops silently with
the records produced so far, but the cv/build.py parser raises a noComma
error instead of returning normally. -/
theorem claim_C2 (es : List BibEntry) (sep etype g path : List Char)
    (hwf : wfEntriesB es = true) (hsep : '@' ∉ sep) (hne : etype ≠ [])
    (hword : ∀ c ∈ etype, isWordChar c = true) (hg : ',' ∉ g) :
    GenerateResearch.parse_bib (renderEntries es ++ (sep ++ '@' :: (etype ++ '{' :: g)))
      = .ok (es.map recordOfA) ∧
    CvBuild.parse_bib path (renderEntries es ++ (sep ++ '@' :: (etype ++ '{' :: g)))
      = .error (.noComma path (lowerStr etype)) := by
  have hstep := entryStep_noComma hsep hne hword hg
  constructor
  · have := parseA_render_gen es _ [] hwf (parseA_of_step_noComma hstep)
    rwa [List.append_nil] at this
  · exact parseS_render_err path es _ _ hwf (parseS_of_step_noComma hstep)

theorem claim_C2_witness :
    GenerateResearch.parse_bib (renderEntries [] ++ ([] ++ '@' :: ("a".toList ++ '{' :: "k".toList)))
      = .ok ([].map recordOfA) ∧
    CvBuild.parse_bib "p".toList
        (renderEntries [] ++ ([] ++ '@' :: ("a".toList ++ '{' :: "k".toList)))
      = .error (.noComma "p".toList (lowerStr "a".toList)) :=
  claim_C2 [] [] "a".toList "k".toList "p".toList (by decide) (by decide) (by decide)
    (by decide) (by decide)

theorem claim_C2_cex :
    CvBuild.parse_bib "p".toList "@a\x7bk".toList
      = .error (.noComma "p".toList "a".toList) := by
  have hstep : entryStep "@a\x7bk".toList = .noComma "a".toList := by decide
  rw [parseS_of_step_noComma hstep]
  rfl

/-- C3: corrected form of the unmatched-brace policy: when the brace-depth
scan of an entry body never returns to zero, the cv/build.py parser fails
with a descriptive unmatchedBraces error carrying the source path, but the
generate_research.py parser returns normally with the records produced so
far. -/
theorem claim_C3 (es : List BibEntry) (sep etype key g path : List Char)
    (hwf : wfEntriesB es = true) (hsep : '@' ∉ sep) (hne : etype ≠ [])
    (hword : ∀ c ∈ etype, isWordChar c = true) (hkey : ',' ∉ key)
    (hg : depthPos 1 g = true) :
    CvBuild.parse_bib path
        (renderEntries es ++ (sep ++ '@' :: (etype ++ '{' :: (key ++ ',' :: g))))
      = .error (.unmatchedBraces path (lowerStr etype) (pyStrip key)) ∧
    GenerateResearch.parse_bib
        (renderEntries es ++ (sep ++ '@' :: (etype ++ '{' :: (key ++ ',' :: g))))
      = .ok (es.map recordOfA) := by
  have hstep := entryStep_unmatched hsep hne hword hkey hg
  constructor
  · exact parseS_render_err path es _ _ hwf (parseS_of_step_unmatched hstep)
  · have := parseA_render_gen es _ [] hwf (parseA_of_step_unmatched hstep)
    rwa [List.append_nil] at this

theorem claim_C3_witness :
    CvBuild.parse_bib "p".toList
        (renderEntries [] ++ ([] ++ '@' :: ("a".toList ++ '{' :: ("k".toList ++ ',' :: "\x7b".toList))))
      = .error (.unmatchedBraces "p".toList (lowerStr "a".toList) (pyStrip "k".toList)) ∧
    GenerateResearch.parse_bib
        (renderEntries [] ++ ([] ++ '@' :: ("a".toList ++ '{' :: ("k".toList ++ ',' :: "\x7b".toList))))
      = .ok ([].map recordOfA) :=
  claim_C3 [] [] "a".toList "k".toList "\x7b".toList "p".toList (by decide) (by decide)
    (by decide) (by decide) (by decide) (by decide)

theorem claim_C3_cex :
    GenerateResearch.parse_bib "@a\x7bk,\x7b".toList = .ok [] := by
  have hstep : entryStep "@a\x7bk,\x7b".toList = .unmatched "a".toList "k".toList := by decide
  exact parseA_of_step_unmatched hstep

/-- C4: actual behavior of the tilde fixup: because the generic tilde rule
runs first and rewrites the braced form to a combining sequence, the cleanup
maps the braced input to n followed by U+0303 and not to the precomposed
character, while the unbraced input does become the precomposed character. -/
theorem claim_C4 :
    clean_latex "\\~\x7bn\x7d".toList = ['n', '\u0303'] ∧
    clean_latex "\\~\x7bn\x7d".toList ≠ "ñ".toList ∧
    clean_latex "\\~n".toList = "ñ".toList :=
  ⟨clean_latex_tilde_braced,
   by rw [clean_latex_tilde_braced]; decide,
   clean_latex_tilde_plain⟩

/-- C5: in a parsed entry whose lowercased field names are distinct, a field
named pages stores its cleaned value with double hyphens replaced by
en-dashes, and a field with any other name stores the cleaned value with no
such replacement, in both parsers. -/
theorem claim_C5 (e : BibEntry) (f : BibField) (path : List Char) (hf : f ∈ e.fields)
    (he : wfEntryB e = true)
    (hnd : (e.fields.map (fun g => lowerStr g.name)).Nodup) :
    ∃ rA rB : BibRecord,
      GenerateResearch.parse_bib (renderEntries [e]) = .ok [rA] ∧
      CvBuild.parse_bib path (renderEntries [e]) = .ok [rB] ∧
      lookupField rA.fields (lowerStr f.name)
        = some (if lowerStr f.name = pagesStr then dashFix (clean_latex (rawVal f.val))
                else clean_latex (rawVal f.val)) ∧
      lookupField rB.fields (lowerStr f.name)
        = some (if lowerStr f.name = pagesStr then dashFix (clean_latex (rawVal f.val))
                else clean_latex (rawVal f.val)) := by
  have hwf : wfEntriesB [e] = true := by simp [wfEntriesB, he]
  refine ⟨recordOfA e, recordOfB e, ?_, ?_, ?_, ?_⟩
  · have := parseA_render [e] [] hwf (by decide)
    rwa [List.append_nil] at this
  · have := parseS_render path [e] [] hwf (by decide)
    rwa [List.append_nil] at this
  · show lookupField (collectA [] e.fields) (lowerStr f.name) = _
    rw [lookup_collectA_mem hf hnd []]
    unfold GenerateResearch.procValue
    rfl
  · show lookupField (CvBuild.pagesFixup (collectB [] e.fields)) (lowerStr f.name) = _
    by_cases hp : lowerStr f.name = pagesStr
    · rw [if_pos hp]
      rw [hp]
      rw [lookup_pagesFixup_pages (hp ▸ lookup_collectB_mem hf hnd [])]
    · rw [if_neg hp]
      rw [lookup_pagesFixup_ne hp]
      exact lookup_collectB_mem hf hnd []

theorem claim_C5_witness :
    (⟨"pages".toList, FieldVal.braced "10--15".toList⟩ : BibField) ∈
      [(⟨"pages".toList, FieldVal.braced "10--15".toList⟩ : BibField),
       (⟨"note".toList, FieldVal.braced "10--15".toList⟩ : BibField)] ∧
    (∃ rA rB : BibRecord,
      GenerateResearch.parse_bib (renderEntries [(⟨[], "a".toList, "k".toList,
        [(⟨"pages".toList, FieldVal.braced "10--15".toList⟩ : BibField),
         (⟨"note".toList, FieldVal.braced "10--15".toList⟩ : BibField)]⟩ : BibEntry)]) = .ok [rA] ∧
      CvBuild.parse_bib "p".toList (renderEntries [(⟨[], "a".toList, "k".toList,
        [(⟨"pages".toList, FieldVal.braced "10--15".toList⟩ : BibField),
         (⟨"note".toList, FieldVal.braced "10--15".toList⟩ : BibField)]⟩ : BibEntry)]) = .ok [rB] ∧
      lookupField rA.fields (lowerStr "pages".toList)
        = some (if lowerStr "pages".toList = pagesStr
                then dashFix (clean_latex (rawVal (FieldVal.braced "10--15".toList)))
                else clean_latex (rawVal (FieldVal.braced "10--15".toList))) ∧
      lookupField rB.fields (lowerStr "pages".toList)
        = some (if lowerStr "pages".toList = pagesStr
                then dashFix (clean_latex (rawVal (FieldVal.braced "10--15".toList)))
                else clean_latex (rawVal (FieldVal.braced "10--15".toList)))) :=
  ⟨by decide,
   claim_C5 (⟨[], "a".toList, "k".toList,
      [(⟨"pages".toList, FieldVal.braced "10--15".toList⟩ : BibField),
       (⟨"note".toList, FieldVal.braced "10--15".toList⟩ : BibField)]⟩ : BibEntry)
     (⟨"pages".toList, FieldVal.braced "10--15".toList⟩ : BibField)
     "p".toList (by decide) (by decide) (by decide)⟩

/-- C6: on a string with no backslash commands and no braces the cleanup is
exactly Python strip: it only trims surrounding whitespace. -/
theorem claim_C6 {s : List Char} (h1 : '\\' ∉ s) (h2 : '{' ∉ s) (h3 : '}' ∉ s) :
    clean_latex s = pyStrip s :=
  clean_latex_plain h1 h2 h3

theorem claim_C6_witness :
    clean_latex "  A Study  ".toList = pyStrip "  A Study  ".toList :=
  claim_C6 (by decide) (by decide) (by decide)

/-- C7: the cleanup is idempotent on any string whose cleaned form has no
remaining markup (no backslash; braces are removed by the cleanup itself). -/
theorem claim_C7 {s : List Char} (h : '\\' ∉ clean_latex s) :
    clean_latex (clean_latex s) = clean_latex s := by
  rw [clean_latex_plain h (clean_latex_no_braces s).1 (clean_latex_no_braces s).2]
  exact pyStrip_clean_latex s

theorem claim_C7_witness :
    clean_latex (clean_latex " hi ".toList) = clean_latex " hi ".toList :=
  claim_C7 (by
    rw [clean_latex_plain (s := " hi ".toList) (by decide) (by decide) (by decide)]
    decide)

/-- C8: corrected form of the author formatting: with an authordisplay field
the value is returned verbatim; otherwise the author field is split on the
whitespace-delimited separator word, each part is whitespace-stripped and a
part whose lowercase form is the word others is replaced by that lowercase
word, and the parts are joined as-is, with the two-part separator, or with
the Oxford comma. -/
theorem claim_C8 :
    (∀ (fields : Fields) (d : List Char),
        lookupField fields "authordisplay".toList = some d → format_authors fields = d) ∧
    (∀ (fields : Fields) (names : List (List Char)),
        lookupField fields "authordisplay".toList = none →
        lookupField fields "author".toList = some (joinSep " and ".toList names) →
        names ≠ [] →
        (∀ n ∈ names, n ≠ [] ∧ headNotSpace n = true ∧ lastNotSpace n = true ∧
          containsWsAnd n = false) →
        format_authors fields = renderAuthors names) :=
  ⟨fun _ _ hd => format_authors_display hd,
   fun _ _ hnd hau hne hwf => format_authors_render hnd hau hne hwf⟩

theorem claim_C8_witness :
    format_authors [("authordisplay".toList, "X".toList)] = "X".toList ∧
    format_authors [("author".toList, joinSep " and ".toList ["A, B".toList, "C, D".toList])]
      = renderAuthors ["A, B".toList, "C, D".toList] :=
  ⟨claim_C8.1 _ _ (by decide),
   claim_C8.2 _ _ (by decide) (by decide) (by decide) (by decide)⟩

theorem claim_C8_cex :
    format_authors [("author".toList, "Others".toList)] = "others".toList ∧
    "others".toList ≠ "Others".toList := by
  constructor
  · have hs : splitAnd "Others".toList = ["Others".toList] := by
      unfold splitAnd
      rw [splitAnd_go_last "Others".toList [] (by decide) (by decide)]
      rfl
    have h1 : lookupField [("author".toList, "Others".toList)] "authordisplay".toList
        = none := by decide
    have h2 : lookupField [("author".toList, "Others".toList)] "author".toList
        = some "Others".toList := by decide
    unfold format_authors
    simp only [h1, h2, Option.getD_some]
    rw [hs]
    decide
  · decide

/-- C9: each productive iteration of the field-extraction loop and of the
entry-scanning loop leaves a strictly shorter remaining input, so both loops
advance their cursor monotonically and terminate on every input. -/
theorem claim_C9 :
    (∀ (body name value rest : List Char),
        fieldStep body = FieldStep.found name value rest → rest.length < body.length) ∧
    (∀ (text w key body rest : List Char),
        entryStep text = EntryStep.found w key body rest → rest.length < text.length) :=
  ⟨fun _ _ _ _ h => fieldStep_length h, fun _ _ _ _ _ h => entryStep_length h⟩

theorem claim_C9_witness :
    (",".toList).length < ("a = \x7bx\x7d,".toList).length ∧
    ([] : List Char).length < ("@a\x7bk,\x7d".toList).length :=
  ⟨claim_C9.1 "a = \x7bx\x7d,".toList "a".toList "x".toList ",".toList (by decide),
   claim_C9.2 "@a\x7bk,\x7d".toList "a".toList "k".toList [] [] (by decide)⟩

/-- C10: an entry body whose field value opens with a double quote that is
never closed makes field extraction raise in both scripts: both
parse_bib_fields variants return the error, and both parsers propagate it on
a full entry, the strict one wrapped with the entry type and key. -/
theorem claim_C10 :
    GenerateResearch.parse_bib_fields "a = \x22x".toList = .error () ∧
    CvBuild.parse_bib_fields "a = \x22x".toList = .error () ∧
    GenerateResearch.parse_bib "@t\x7bk, a = \x22x\x7d".toList = .error () ∧
    CvBuild.parse_bib "p".toList "@t\x7bk, a = \x22x\x7d".toList
      = .error (.fieldError "p".toList "t".toList "k".toList) := by
  have hf : fieldStep "a = \x22x".toList = .err := by decide
  have hf2 : fieldStep " a = \x22x".toList = .err := by decide
  have hstep : entryStep "@t\x7bk, a = \x22x\x7d".toList
      = .found "t".toList "k".toList " a = \x22x".toList [] := by decide
  refine ⟨goA_of_step_err hf, ?_, ?_, ?_⟩
  · rw [CvBuild.parse_bib_fields]
    rw [goB_of_step_err hf]
    rfl
  · rw [parseA_of_step_found hstep]
    rw [show GenerateResearch.parse_bib_fields " a = \x22x".toList = .error () from
      goA_of_step_err hf2]
  · rw [parseS_of_step_found hstep]
    rw [show CvBuild.parse_bib_fields " a = \x22x".toList = .error () from by
      rw [CvBuild.parse_bib_fields]
      rw [goB_of_step_err hf2]
      rfl]
    rfl
